import Mathlib

/-!
Verification of the votechain ledger core (Django app `voting_api`).

This file shallowly embeds the parts of the repository that the claims
touch: the hash-chained `VoteLedger` (models.py), the cast-vote flow
(serializers.py / views.py), the tally projection `_get_tally_data`
(views.py), the dashboard consumer (consumers.py), and the two public
read endpoints (views.py).  Machine integers are `Nat` with explicit
`% 2 ^ 32` where SHA-256 needs 32-bit wrap-around.  Stateful Django ORM
code becomes explicit state passing over a `DB` record; fallible code
returns `Option`.
-/

namespace Votechain

/-! ### SHA-256, embedded from `hashlib.sha256(...).hexdigest()`

The round constants and initial state are computed, as in the FIPS 180-4
definition, from the fractional parts of the cube roots (resp. square
roots) of the first 64 (resp. 8) primes, so nothing here is a stub. -/

/-- Truncate to a 32-bit word. -/
def w32 (n : Nat) : Nat := n % 4294967296

/-- Right rotation of a 32-bit word by `k` bits. -/
def rotr (k x : Nat) : Nat := (x >>> k) ||| w32 (x <<< (32 - k))

/-- Bitwise complement of a 32-bit word. -/
def not32 (x : Nat) : Nat := 4294967295 ^^^ w32 x

/-- SHA-256 `Ch` function. -/
def ch (e f g : Nat) : Nat := (e &&& f) ^^^ (not32 e &&& g)

/-- SHA-256 `Maj` function. -/
def maj (a b c : Nat) : Nat := (a &&& b) ^^^ (a &&& c) ^^^ (b &&& c)

/-- SHA-256 big sigma 0. -/
def bsig0 (x : Nat) : Nat := rotr 2 x ^^^ rotr 13 x ^^^ rotr 22 x

/-- SHA-256 big sigma 1. -/
def bsig1 (x : Nat) : Nat := rotr 6 x ^^^ rotr 11 x ^^^ rotr 25 x

/-- SHA-256 small sigma 0. -/
def ssig0 (x : Nat) : Nat := rotr 7 x ^^^ rotr 18 x ^^^ (x >>> 3)

/-- SHA-256 small sigma 1. -/
def ssig1 (x : Nat) : Nat := rotr 17 x ^^^ rotr 19 x ^^^ (x >>> 10)

/-- Integer cube root by fuelled binary search (invariant: `lo ^ 3 ≤ n < hi ^ 3`). -/
def icbrtAux : Nat → Nat → Nat → Nat → Nat
  | 0, lo, _, _ => lo
  | fuel + 1, lo, hi, n =>
    if hi ≤ lo + 1 then lo
    else
      let mid := (lo + hi) / 2
      if mid ^ 3 ≤ n then icbrtAux fuel mid hi n else icbrtAux fuel lo mid n

/-- Integer cube root. -/
def icbrt (n : Nat) : Nat := icbrtAux 130 0 (n + 1) n

/-- The first 64 primes, whose cube roots give the SHA-256 round constants. -/
def primes64 : List Nat :=
  [2, 3, 5, 7, 11, 13, 17, 19, 23, 29, 31, 37, 41, 43, 47, 53,
   59, 61, 67, 71, 73, 79, 83, 89, 97, 101, 103, 107, 109, 113, 127, 131,
   137, 139, 149, 151, 157, 163, 167, 173, 179, 181, 191, 193, 197, 199, 211, 223,
   227, 229, 233, 239, 241, 251, 257, 263, 269, 271, 277, 281, 283, 293, 307, 311]

/-- Round constant for prime `p`: first 32 bits of the fraction of `p ^ (1/3)`. -/
def kconst (p : Nat) : Nat := w32 (icbrt (p <<< 96))

/-- The 64 SHA-256 round constants. -/
def sha256K : List Nat := primes64.map kconst

/-- Integer square root by fuelled binary search (invariant: `lo ^ 2 ≤ n < hi ^ 2`). -/
def isqrtAux : Nat → Nat → Nat → Nat → Nat
  | 0, lo, _, _ => lo
  | fuel + 1, lo, hi, n =>
    if hi ≤ lo + 1 then lo
    else
      let mid := (lo + hi) / 2
      if mid ^ 2 ≤ n then isqrtAux fuel mid hi n else isqrtAux fuel lo mid n

/-- Integer square root. -/
def isqrt (n : Nat) : Nat := isqrtAux 130 0 (n + 1) n

/-- Initial hash word for prime `p`: first 32 bits of the fraction of `sqrt p`. -/
def hconst (p : Nat) : Nat := w32 (isqrt (p <<< 64))

/-- The eight SHA-256 working registers. -/
structure Regs where
  a : Nat
  b : Nat
  c : Nat
  d : Nat
  e : Nat
  f : Nat
  g : Nat
  h : Nat

/-- The SHA-256 initial register state. -/
def regsInit : Regs :=
  ⟨hconst 2, hconst 3, hconst 5, hconst 7, hconst 11, hconst 13, hconst 17, hconst 19⟩

/-- Big-endian byte rendering of `n` on `k` bytes. -/
def bytesOfNatBE (k n : Nat) : List Nat :=
  (List.range k).map (fun i => (n >>> (8 * (k - 1 - i))) % 256)

/-- SHA-256 padding: append `0x80`, zeros, then the 64-bit big-endian bit length. -/
def padMessage (m : List Nat) : List Nat :=
  let L := m.length
  let zeros := (120 - ((L + 1) % 64)) % 64
  m ++ [128] ++ List.replicate zeros 0 ++ bytesOfNatBE 8 (8 * L)

/-- Big-endian 32-bit words of a byte list. -/
def wordsOfBytes (b : List Nat) : List Nat :=
  (List.toChunks 4 b).map (fun c => c.foldl (fun acc x => acc * 256 + x) 0)

/-- Extend the 16 block words to the 64-entry message schedule. -/
def msgSchedule (ws : List Nat) : List Nat :=
  let arr := (List.range 48).foldl
    (fun w i =>
      w.push (w32 (ssig1 (w.getD (i + 14) 0) + w.getD (i + 9) 0 +
                   ssig0 (w.getD (i + 1) 0) + w.getD i 0)))
    ws.toArray
  arr.toList

/-- One SHA-256 compression round. -/
def sha256Round (r : Regs) (kw : Nat × Nat) : Regs :=
  let t1 := w32 (r.h + bsig1 r.e + ch r.e r.f r.g + kw.1 + kw.2)
  let t2 := w32 (bsig0 r.a + maj r.a r.b r.c)
  ⟨w32 (t1 + t2), r.a, r.b, r.c, w32 (r.d + t1), r.e, r.f, r.g⟩

/-- Compress one 64-byte block into the running state. -/
def sha256Compress (st : Regs) (block : List Nat) : Regs :=
  let ws := msgSchedule (wordsOfBytes block)
  let r := (sha256K.zip ws).foldl sha256Round st
  ⟨w32 (st.a + r.a), w32 (st.b + r.b), w32 (st.c + r.c), w32 (st.d + r.d),
   w32 (st.e + r.e), w32 (st.f + r.f), w32 (st.g + r.g), w32 (st.h + r.h)⟩

/-- SHA-256 of a byte list, as 32 bytes. -/
def sha256Bytes (m : List Nat) : List Nat :=
  let st := (List.toChunks 64 (padMessage m)).foldl sha256Compress regsInit
  bytesOfNatBE 4 st.a ++ bytesOfNatBE 4 st.b ++ bytesOfNatBE 4 st.c ++ bytesOfNatBE 4 st.d ++
  bytesOfNatBE 4 st.e ++ bytesOfNatBE 4 st.f ++ bytesOfNatBE 4 st.g ++ bytesOfNatBE 4 st.h

/-- Lowercase hex digit. -/
def hexDigit (n : Nat) : Char := if n < 10 then Char.ofNat (48 + n) else Char.ofNat (87 + n)

/-- Lowercase hex string of a byte list. -/
def hexOfBytes (bs : List Nat) : String :=
  String.mk (bs.foldr (fun b acc => hexDigit (b / 16) :: hexDigit (b % 16) :: acc) [])

/-- UTF-8 encoding of one character. -/
def utf8Encode (c : Char) : List Nat :=
  let n := c.toNat
  if n < 128 then [n]
  else if n < 2048 then [192 + n / 64, 128 + n % 64]
  else if n < 65536 then [224 + n / 4096, 128 + (n / 64) % 64, 128 + n % 64]
  else [240 + n / 262144, 128 + (n / 4096) % 64, 128 + (n / 64) % 64, 128 + n % 64]

/-- UTF-8 bytes of a string. -/
def utf8Bytes (s : String) : List Nat :=
  s.toList.foldr (fun c acc => utf8Encode c ++ acc) []

/-- Model of Python `hashlib.sha256(s.encode('utf-8')).hexdigest()`. -/
def sha256hex (s : String) : String := hexOfBytes (sha256Bytes (utf8Bytes s))

/-! ### Python `json.dumps(..., sort_keys=True)` on a flat string-to-string dict

`VoteLedger.calculate_hash` serializes `ballot_data` with
`json.dumps(self.ballot_data, sort_keys=True)`.  Python's default
separators are `', '` and `': '` (a space after each comma and colon);
`ensure_ascii=True` escapes non-ASCII characters. -/

/-- Four lowercase hex digits of `n < 65536`. -/
def hex4 (n : Nat) : String :=
  String.mk [hexDigit (n / 4096 % 16), hexDigit (n / 256 % 16), hexDigit (n / 16 % 16),
             hexDigit (n % 16)]

/-- JSON escaping of one character, as `json.dumps` does with `ensure_ascii=True`. -/
def jsonEscapeChar (c : Char) : String :=
  let n := c.toNat
  if c = '"' then "\\\""
  else if c = '\\' then "\\\\"
  else if n = 10 then "\\n"
  else if n = 9 then "\\t"
  else if n = 13 then "\\r"
  else if n = 8 then "\\b"
  else if n = 12 then "\\f"
  else if n < 32 then "\\u" ++ hex4 n
  else if n < 128 then String.mk [c]
  else if n < 65536 then "\\u" ++ hex4 n
  else "\\u" ++ hex4 (55296 + (n - 65536) / 1024) ++ "\\u" ++ hex4 (56320 + (n - 65536) % 1024)

/-- JSON string literal of `s`. -/
def jsonStr (s : String) : String :=
  "\"" ++ String.join (s.toList.map jsonEscapeChar) ++ "\""

/-- Python's string comparison: lexicographic on Unicode code points. -/
def charListLt : List Char → List Char → Bool
  | [], [] => false
  | [], _ :: _ => true
  | _ :: _, [] => false
  | x :: xs, y :: ys =>
    if x < y then true else if y < x then false else charListLt xs ys

/-- Strict comparison of strings by code points, as Python `<` on `str`. -/
def strLt (a b : String) : Bool := charListLt a.toList b.toList

/-- Comparison of ballot items by key, as `sort_keys=True` sorts the dict keys. -/
def keyLE (x y : String × String) : Prop := strLt y.1 x.1 = false

instance : DecidableRel keyLE := fun x y => inferInstanceAs (Decidable (strLt y.1 x.1 = false))

/-- Model of `json.dumps(ballot_data, sort_keys=True)` for the flat
string-to-string object `ballot_data`: keys sorted lexicographically, and
Python's default separators `', '` and `': '`. -/
def jsonDumpsSorted (b : List (String × String)) : String :=
  let items := List.insertionSort keyLE b
  "\x7b" ++ String.intercalate ", "
    (items.map (fun kv => jsonStr kv.1 ++ ": " ++ jsonStr kv.2)) ++ "\x7d"

/-! ### Data model (models.py)

`Election`, `RegisteredVoter` and `VoteLedger` rows become records; the
database becomes a `DB` record whose `ledger` list is kept in commit
(insertion) order.  JSON objects (`positions_json`, `ballot_data`) become
insertion-ordered association lists, as Python dicts are. -/

/-- A row of the `Election` table.  `id` is the integer primary key used by
`calculate_hash` via `str(self.election.id)`; `election_id` is the URL slug. -/
structure Election where
  id : Nat
  name : String
  election_id : String
  positions_json : List (String × List String)
  is_active : Bool
deriving Repr, DecidableEq

/-- A row of the `RegisteredVoter` table (`election` is the Election pk). -/
structure RegisteredVoter where
  election : Nat
  voter_hash : String
  has_voted : Bool
deriving Repr, DecidableEq

/-- A row of the `VoteLedger` table (`election` is the Election pk, `pk` the
row's own primary key, exposed as `vote_id`). -/
structure VoteEntry where
  pk : Nat
  election : Nat
  ballot_data : List (String × String)
  timestamp : Nat
  previous_hash : String
  current_hash : String
deriving Repr, DecidableEq

/-- The database state: the three tables the core flows touch.  The
`ledger` list is in commit order (SQL insertion order). -/
structure DB where
  elections : List Election
  voters : List RegisteredVoter
  ledger : List VoteEntry
deriving Repr, DecidableEq

/-- The genesis sentinel `"0" * 64` from `VoteLedger.save`. -/
def genesis_hash : String := String.mk (List.replicate 64 '0')

/-- Instants handed out by `timezone.now()`; `isoformat` models
`datetime.isoformat()`, an injective rendering of the instant used only as
an opaque component of the hash pre-image. -/
def isoformat (t : Nat) : String := Nat.repr t

namespace VoteLedger

/-- Model of `VoteLedger.calculate_hash`: SHA-256 over the concatenation of
`str(self.election.id)`, `json.dumps(self.ballot_data, sort_keys=True)`,
`self.timestamp.isoformat()` and `self.previous_hash`. -/
def calculate_hash (electionId : Nat) (ballot_data : List (String × String))
    (timestamp : Nat) (previous_hash : String) : String :=
  sha256hex (Nat.repr electionId ++ jsonDumpsSorted ballot_data ++ isoformat timestamp ++
    previous_hash)

end VoteLedger

/-- Entries of one election in commit order
(`VoteLedger.objects.filter(election=...)` before any ordering). -/
def ledgerOf (db : DB) (eid : Nat) : List VoteEntry :=
  db.ledger.filter (fun e => e.election == eid)

namespace VoteLedger

/-- Model of
`VoteLedger.objects.filter(election=...).order_by('-timestamp').first()`:
the entry with the greatest timestamp (ties, which the SQL leaves
unspecified, are resolved to the earliest-committed entry). -/
def last_vote (db : DB) (eid : Nat) : Option VoteEntry :=
  (ledgerOf db eid).foldl
    (fun acc e => match acc with
      | none => some e
      | some m => if m.timestamp < e.timestamp then some e else some m)
    none

/-- Fields of a new `VoteLedger` row after the `transaction.atomic()` block
of `save` has run, before the SQL INSERT: the timestamp is fixed to `now`
(`timezone.now()`), `previous_hash` is the tail's `current_hash` or the
genesis sentinel, and `current_hash` comes from `calculate_hash`. -/
def save_read_phase (db : DB) (eid : Nat) (ballot : List (String × String)) (now : Nat) :
    VoteEntry :=
  let prev := match last_vote db eid with
    | some lv => lv.current_hash
    | none => genesis_hash
  ⟨db.ledger.length + 1, eid, ballot, now, prev, calculate_hash eid ballot now prev⟩

/-- The SQL INSERT performed by `super().save()`: the UNIQUE constraint on
`current_hash` makes the insert raise `IntegrityError` (modelled as `none`)
when the digest already exists; otherwise the row is appended. -/
def save_commit_phase (db : DB) (e : VoteEntry) : Option DB :=
  if db.ledger.any (fun x => x.current_hash == e.current_hash) then none
  else some { db with ledger := db.ledger ++ [e] }

/-- Model of `VoteLedger.save` on a fresh row (`self.pk is None`), as invoked
by `VoteLedger.objects.create(election=..., ballot_data=...)`. -/
def save (db : DB) (eid : Nat) (ballot : List (String × String)) (now : Nat) :
    Option (VoteEntry × DB) :=
  let e := save_read_phase db eid ballot now
  match save_commit_phase db e with
  | none => none
  | some db' => some (e, db')

end VoteLedger

/-! ### Cast flow (serializers.py `CastBallotSerializer.validate`,
views.py `CastVoteView.post`) -/

/-- Model of `hash_voter_data`: SHA-256 of `f"{rfid}-{fingerprint}"`. -/
def hash_voter_data (rfid fingerprint : String) : String :=
  sha256hex (rfid ++ "-" ++ fingerprint)

/-- The body of a cast request, after DRF field validation. -/
structure CastRequest where
  rfid : String
  fingerprint : String
  election_id : String
  votes : List (String × String)

/-- Model of `Election.objects.get(election_id=..., is_active=True)` (the
unique constraint on `election_id` makes `find?` faithful). -/
def findElectionActive (db : DB) (slug : String) : Option Election :=
  db.elections.find? (fun e => e.election_id == slug && e.is_active)

/-- Model of `Election.objects.get(election_id=...)`. -/
def findElection (db : DB) (slug : String) : Option Election :=
  db.elections.find? (fun e => e.election_id == slug)

/-- Model of `RegisteredVoter.objects.get(election=..., voter_hash=...)`
(unique together on the pair). -/
def findVoter (db : DB) (eid : Nat) (vh : String) : Option RegisteredVoter :=
  db.voters.find? (fun v => v.election == eid && v.voter_hash == vh)

/-- Model of `CastBallotSerializer.validate`: election must exist and be
active, the voter credential hash must be registered, and the voter must
not have voted.  The `votes` payload itself is never inspected (the
source marks schema validation of `votes` as a TODO). -/
def cast_validate (db : DB) (req : CastRequest) :
    Except String (Election × RegisteredVoter) :=
  match findElectionActive db req.election_id with
  | none => .error ("Election '" ++ req.election_id ++ "' does not exist or is not active.")
  | some election =>
    match findVoter db election.id (hash_voter_data req.rfid req.fingerprint) with
    | none => .error "Invalid voter: RFID/Fingerprint not registered for this election."
    | some voter =>
      if voter.has_voted then .error "Duplicate vote: This voter has already cast a ballot."
      else .ok (election, voter)

/-- Outcome of `CastVoteView.post`: 400 with serializer errors, 201, or the
catch-all 500. -/
inductive CastOutcome where
  | badRequest (message : String)
  | created
  | serverError
deriving Repr, DecidableEq

/-- Model of `voter.has_voted = True; voter.save()` inside the transaction. -/
def markVoted (db : DB) (eid : Nat) (vh : String) : DB :=
  { db with voters :=
      db.voters.map (fun v =>
        if v.election == eid && v.voter_hash == vh then { v with has_voted := true } else v) }

/-- Model of `CastVoteView.post`: validate, then inside one
`transaction.atomic()` create the `VoteLedger` row and mark the voter as
having voted; a database error rolls the whole transaction back and is
answered with a 500.  (The subsequent broadcast cannot change the outcome
or the state.) -/
def cast_vote (db : DB) (req : CastRequest) (now : Nat) : CastOutcome × DB :=
  match cast_validate db req with
  | .error msg => (.badRequest msg, db)
  | .ok (election, voter) =>
    match VoteLedger.save db election.id req.votes now with
    | none => (.serverError, db)
    | some r => (.created, markVoted r.2 election.id voter.voter_hash)

/-! ### Tally projection (views.py `_get_tally_data`) -/

/-- Python dict lookup on an insertion-ordered association list. -/
def dictGet {α : Type} (k : String) : List (String × α) → Option α
  | [] => none
  | (k', v) :: rest => if k' == k then some v else dictGet k rest

/-- Python dict assignment: replace in place, or append a new key. -/
def dictSet {α : Type} (k : String) (v : α) : List (String × α) → List (String × α)
  | [] => [(k, v)]
  | (k', v') :: rest => if k' == k then (k', v) :: rest else (k', v') :: dictSet k v rest

/-- The nested tally dict: position name to (candidate name to count). -/
abbrev Tally := List (String × List (String × Nat))

/-- Model of the initialization loop of `_get_tally_data`:
`tally[position] = {candidate: 0 for candidate in candidates}`. -/
def init_tally (schema : List (String × List String)) : Tally :=
  schema.foldl (fun t pc => dictSet pc.1 (pc.2.foldl (fun d c => dictSet c 0 d) []) t) []

/-- Model of the body of the scan loop: increment only when
`position in tally and candidate in tally[position]`. -/
def tally_add (t : Tally) (pos cand : String) : Tally :=
  match dictGet pos t with
  | none => t
  | some d =>
    match dictGet cand d with
    | none => t
    | some n => dictSet pos (dictSet cand (n + 1) d) t

/-- Model of the scan over `votes`: one pass over the ballots, and within a
ballot one pass over its `(position, candidate)` items. -/
def tally_of (schema : List (String × List String))
    (ballots : List (List (String × String))) : Tally :=
  ballots.foldl (fun t b => b.foldl (fun t' pc => tally_add t' pc.1 pc.2) t)
    (init_tally schema)

/-- A row of the serialized tally (`PublicTallySerializer`). -/
structure TallyRow where
  position : String
  candidate : String
  votes : Nat
deriving Repr, DecidableEq

/-- Model of the flattening loop producing `tally_results`, in dict
(insertion) order. -/
def tally_rows : Tally → List TallyRow
  | [] => []
  | pd :: rest => pd.2.map (fun cn => ⟨pd.1, cn.1, cn.2⟩) ++ tally_rows rest

/-- A row of the serialized ledger (`PublicLedgerSerializer`). -/
structure LedgerRow where
  vote_id : Nat
  timestamp : Nat
  previous_hash : String
  current_hash : String
  ballot_data : List (String × String)
deriving Repr, DecidableEq

/-- The dashboard payload shape returned by `_get_tally_data`. -/
structure Payload where
  tally : List TallyRow
  ledger : List LedgerRow
deriving Repr, DecidableEq

/-- Model of `VoteLedger.objects.filter(election=...).order_by('timestamp')`
(also the default `Meta.ordering`): entries of the election by ascending
timestamp; the sort is stable, ties keep commit order. -/
def listEntries (db : DB) (eid : Nat) : List VoteEntry :=
  List.insertionSort (fun a b => a.timestamp ≤ b.timestamp) (ledgerOf db eid)

/-- Model of `_get_tally_data`: the zero-initialized tally bumped by one scan
over the ballots, flattened in schema order, plus the full ledger listing. -/
def get_tally_data (db : DB) (election : Election) : Payload :=
  let entries := listEntries db election.id
  { tally := tally_rows (tally_of election.positions_json (entries.map (fun e => e.ballot_data))),
    ledger := entries.map (fun e => ⟨e.pk, e.timestamp, e.previous_hash, e.current_hash, e.ballot_data⟩) }

/-! ### Public read endpoints (views.py) -/

/-- Response of `PublicTallyView.get`. -/
inductive TallyResponse where
  | ok (payload : Payload)
  | http404
deriving Repr, DecidableEq

/-- Model of `PublicTallyView.get`: 404 only when no election has the slug;
otherwise the full snapshot, with no check of `is_active`. -/
def public_tally_view (db : DB) (election_id : String) : TallyResponse :=
  match findElection db election_id with
  | none => .http404
  | some e => .ok (get_tally_data db e)

/-- The body `PublicElectionDetailSerializer` exposes. -/
structure DetailPayload where
  name : String
  election_id : String
  positions_json : List (String × List String)
deriving Repr, DecidableEq

/-- Response of `PublicElectionDetailView.get`. -/
inductive DetailResponse where
  | ok (payload : DetailPayload)
  | http404
deriving Repr, DecidableEq

/-- Model of `PublicElectionDetailView.get`: 404 when the slug is unknown,
and also when the election exists but `is_active` is false. -/
def public_election_detail_view (db : DB) (election_id : String) : DetailResponse :=
  match findElection db election_id with
  | none => .http404
  | some e => if e.is_active then .ok ⟨e.name, e.election_id, e.positions_json⟩ else .http404

/-! ### Dashboard consumer (consumers.py `DashboardConsumer.connect`) -/

/-- Observable actions of the consumer towards the channel layer and the
socket, in program order. -/
inductive WsAction where
  | groupAdd (group : String)
  | accept
  | send (payload : Payload)
  | close
deriving Repr, DecidableEq

/-- Model of `DashboardConsumer.connect`: join the election's group, accept,
then either send the initial snapshot to this session alone, or — when
`get_initial_data` found no election — close the connection. -/
def dashboard_connect (db : DB) (election_id : String) : List WsAction :=
  [.groupAdd ("dashboard_" ++ election_id), .accept] ++
    (match findElection db election_id with
     | some e => [.send (get_tally_data db e)]
     | none => [.close])

/-! ### Sequential runs of the write path -/

/-- One append operation: target election (pk), ballot, and the instant
`timezone.now()` returns during it. -/
structure SaveOp where
  election : Nat
  ballot : List (String × String)
  now : Nat

/-- Run a list of appends through `VoteLedger.save`, failing if any insert
fails. -/
def run_saves (db : DB) : List SaveOp → Option DB
  | [] => some db
  | op :: ops =>
    match VoteLedger.save db op.election op.ballot op.now with
    | none => none
    | some r => run_saves r.2 ops

/-- Model of `verifyChain(electionID)`.

Modelled from the spec: no `verifyChain` exists anywhere in the source;
§4.2 of the spec specifies it as recomputing each entry's hash from its
stored fields and checking chain invariants 1-4 of §3, returning a
boolean rather than raising.  Checks, over the election's entries in
timestamp order: every stored `current_hash` recomputes from the stored
fields; at most one genesis entry, exactly one when the chain is not
empty (invariant 1); every non-genesis entry has exactly one predecessor
entry carrying its `previous_hash` as `current_hash`, strictly earlier in
timestamp order (invariant 2); no two entries share a `previous_hash`
(invariant 3); every `current_hash` occurs exactly once across the whole
ledger, all elections included (invariant 4). -/
def verify_chain (db : DB) (eid : Nat) : Bool :=
  let es := listEntries db eid
  es.all (fun e =>
    VoteLedger.calculate_hash e.election e.ballot_data e.timestamp e.previous_hash ==
      e.current_hash) &&
  (es.isEmpty ||
    ((es.filter (fun e => e.previous_hash == genesis_hash)).length == 1)) &&
  es.all (fun e =>
    (e.previous_hash == genesis_hash) ||
      ((es.filter (fun p => p.current_hash == e.previous_hash &&
          p.timestamp < e.timestamp)).length == 1)) &&
  (es.map (fun e => e.previous_hash)).all
    (fun h => ((es.filter (fun e => e.previous_hash == h)).length == 1)) &&
  es.all (fun e =>
    ((db.ledger.filter (fun x => x.current_hash == e.current_hash)).length == 1))

/-! ### Proof infrastructure: chains -/

/-- The election's entries, in commit order, form one chain whose first
`previous_hash` is `p` and in which every entry carries the digest of its
predecessor. -/
def chainedFrom (p : String) : List VoteEntry → Prop
  | [] => True
  | e :: es => e.previous_hash = p ∧ chainedFrom e.current_hash es

/-- The digest the next appended entry must carry: the last entry's
`current_hash`, or `p` when the chain is empty. -/
def chainTail (p : String) (l : List VoteEntry) : String :=
  match l.getLast? with
  | some m => m.current_hash
  | none => p

/-- Invariant of reachable database states: every election's entries form a
chain from the genesis sentinel, digests are globally distinct, all
timestamps are below `bound` and strictly increase in commit order, and
every stored digest recomputes from the stored fields. -/
structure Inv (db : DB) (bound : Nat) : Prop where
  chain : ∀ eid, chainedFrom genesis_hash (ledgerOf db eid)
  nodupCur : (db.ledger.map (fun e => e.current_hash)).Nodup
  timesLt : ∀ e ∈ db.ledger, e.timestamp < bound
  timesMono : db.ledger.Pairwise (fun a b => a.timestamp < b.timestamp)
  hashComputed : ∀ e ∈ db.ledger, e.current_hash =
    VoteLedger.calculate_hash e.election e.ballot_data e.timestamp e.previous_hash

lemma foldl_pick_last (l : List VoteEntry)
    (h : l.Pairwise (fun a b => a.timestamp < b.timestamp)) :
    l.foldl
      (fun acc e => match acc with
        | none => some e
        | some m => if m.timestamp < e.timestamp then some e else some m)
      none = l.getLast? := by
  induction l using List.reverseRecOn with
  | nil => rfl
  | append_singleton l x ih =>
    rw [List.foldl_append]
    have hl : l.Pairwise (fun a b => a.timestamp < b.timestamp) :=
      h.sublist (List.sublist_append_left l [x])
    rw [ih hl]
    cases hg : l.getLast? with
    | none =>
      have : l = [] := by
        cases l with
        | nil => rfl
        | cons y ys => simp [List.getLast?_concat] at hg
      subst this; simp
    | some m =>
      have hm : m ∈ l := by
        have h1 : m ∈ l.getLast? := by rw [Option.mem_def, hg]
        obtain ⟨hne, heq⟩ := List.mem_getLast?_eq_getLast h1
        rw [heq]; exact List.getLast_mem hne
      have hmx : m.timestamp < x.timestamp := by
        have := (List.pairwise_append.mp h).2.2
        exact this m hm x (by simp)
      simp [List.getLast?_concat, hmx]

lemma last_vote_eq_getLast (db : DB) (eid : Nat)
    (h : (ledgerOf db eid).Pairwise (fun a b => a.timestamp < b.timestamp)) :
    VoteLedger.last_vote db eid = (ledgerOf db eid).getLast? :=
  foldl_pick_last _ h

lemma chainedFrom_append (p : String) (l : List VoteEntry) (e : VoteEntry)
    (hc : chainedFrom p l) (he : e.previous_hash = chainTail p l) :
    chainedFrom p (l ++ [e]) := by
  induction l generalizing p with
  | nil => exact ⟨he, trivial⟩
  | cons x xs ih =>
    obtain ⟨hx, hxs⟩ := hc
    refine ⟨hx, ih x.current_hash hxs ?_⟩
    rw [he]
    cases xs with
    | nil => rfl
    | cons y ys => rfl

lemma save_eq_some (db : DB) (eid : Nat) (b : List (String × String)) (now : Nat)
    (e : VoteEntry) (db' : DB)
    (hs : VoteLedger.save db eid b now = some (e, db')) :
    e = VoteLedger.save_read_phase db eid b now ∧
    db' = { db with ledger := db.ledger ++ [e] } ∧
    db.ledger.any (fun x => x.current_hash == e.current_hash) = false := by
  unfold VoteLedger.save VoteLedger.save_commit_phase at hs
  by_cases hany :
      db.ledger.any
        (fun x => x.current_hash == (VoteLedger.save_read_phase db eid b now).current_hash) = true
  · simp [hany] at hs
  · rw [Bool.not_eq_true] at hany
    simp [hany] at hs
    obtain ⟨he, hdb⟩ := hs
    subst he
    exact ⟨rfl, hdb.symm, hany⟩

lemma ledgerOf_append (db : DB) (e : VoteEntry) (eid : Nat) :
    ledgerOf { db with ledger := db.ledger ++ [e] } eid =
      ledgerOf db eid ++ (if e.election == eid then [e] else []) := by
  simp only [ledgerOf, List.filter_append]
  by_cases h : (e.election == eid) = true
  · simp [List.filter_cons, h]
  · rw [Bool.not_eq_true] at h
    simp [List.filter_cons, h]

lemma inv_step (db : DB) (bound : Nat) (op : SaveOp) (e : VoteEntry) (db' : DB)
    (hInv : Inv db bound) (hb : bound ≤ op.now)
    (hs : VoteLedger.save db op.election op.ballot op.now = some (e, db')) :
    Inv db' (op.now + 1) ∧ db'.ledger = db.ledger ++ [e] ∧ e.election = op.election ∧
      e.timestamp = op.now ∧
      e.previous_hash = chainTail genesis_hash (ledgerOf db op.election) := by
  obtain ⟨he, hdb', hany⟩ := save_eq_some db op.election op.ballot op.now e db' hs
  have hcurfree : ∀ x ∈ db.ledger, x.current_hash ≠ e.current_hash := by
    intro x hx
    have := List.any_eq_false.mp hany x hx
    simpa using this
  have hprev : e.previous_hash = chainTail genesis_hash (ledgerOf db op.election) := by
    rw [he]
    show (match VoteLedger.last_vote db op.election with
      | some lv => lv.current_hash
      | none => genesis_hash) = _
    rw [last_vote_eq_getLast db op.election (hInv.timesMono.filter _)]
    unfold chainTail
    cases (ledgerOf db op.election).getLast? <;> rfl
  have hfields : e.election = op.election ∧ e.timestamp = op.now ∧
      e.ballot_data = op.ballot := by rw [he]; exact ⟨rfl, rfl, rfl⟩
  refine ⟨?_, by rw [hdb'], hfields.1, hfields.2.1, hprev⟩
  constructor
  · intro eid
    rw [hdb', ledgerOf_append]
    by_cases heid : (e.election == eid) = true
    · have heq : op.election = eid := by
        have := beq_iff_eq.mp heid; rw [← this, hfields.1]
      simp only [heid, if_true]
      exact chainedFrom_append _ _ _ (hInv.chain eid) (by rw [hprev, heq])
    · rw [Bool.not_eq_true] at heid
      simp only [heid, if_neg]
      simpa using hInv.chain eid
  · rw [hdb']
    simp only [List.map_append, List.map_cons, List.map_nil]
    rw [List.nodup_append]
    refine ⟨hInv.nodupCur, List.nodup_singleton _, ?_⟩
    intro h hh
    simp only [List.mem_map] at hh
    obtain ⟨x, hx, hxe⟩ := hh
    intro hcontra
    simp only [List.mem_singleton] at hcontra
    exact hcurfree x hx (hcontra ▸ hxe)
  · intro x hx
    rw [hdb'] at hx
    rcases List.mem_append.mp hx with h | h
    · exact lt_of_lt_of_le (hInv.timesLt x h) (Nat.le_succ_of_le hb)
    · simp only [List.mem_singleton] at h
      subst h
      rw [hfields.2.1]
      exact Nat.lt_succ_self _
  · rw [hdb']
    rw [List.pairwise_append]
    refine ⟨hInv.timesMono, List.pairwise_singleton _ _, ?_⟩
    intro a ha b hb'
    simp only [List.mem_singleton] at hb'
    subst hb'
    rw [hfields.2.1]
    exact lt_of_lt_of_le (hInv.timesLt a ha) hb
  · intro x hx
    rw [hdb'] at hx
    rcases List.mem_append.mp hx with h | h
    · exact hInv.hashComputed x h
    · simp only [List.mem_singleton] at h
      subst h
      rw [he]
      rfl

lemma inv_empty (db : DB) (h : db.ledger = []) : Inv db 0 := by
  constructor <;> simp [ledgerOf, h, chainedFrom]

lemma inv_run (ops : List SaveOp) : ∀ (db : DB) (bound : Nat) (db' : DB),
    Inv db bound → (∀ op ∈ ops, bound ≤ op.now) →
    ops.Pairwise (fun a b => a.now < b.now) →
    run_saves db ops = some db' →
    ∃ bound', Inv db' bound' := by
  induction ops with
  | nil =>
    intro db bound db' hInv _ _ hrun
    simp [run_saves] at hrun
    exact ⟨bound, hrun ▸ hInv⟩
  | cons op ops ih =>
    intro db bound db' hInv hle hpw hrun
    unfold run_saves at hrun
    cases hs : VoteLedger.save db op.election op.ballot op.now with
    | none => rw [hs] at hrun; exact absurd hrun (by simp)
    | some r =>
      rw [hs] at hrun
      obtain ⟨hInv1, _, _, _, _⟩ :=
        inv_step db bound op r.1 r.2 hInv (hle op (by simp)) (by rw [hs])
      exact ih r.2 (op.now + 1) db' hInv1
        (fun o ho => Nat.succ_le_of_lt (List.rel_of_pairwise_cons hpw ho))
        (List.Pairwise.of_cons hpw) hrun

lemma run_ledger_len (ops : List SaveOp) : ∀ (db db' : DB) (eid : Nat),
    run_saves db ops = some db' →
    (ledgerOf db' eid).length =
      (ledgerOf db eid).length + (ops.filter (fun op => op.election == eid)).length := by
  induction ops with
  | nil =>
    intro db db' eid hrun
    simp [run_saves] at hrun
    simp [hrun]
  | cons op ops ih =>
    intro db db' eid hrun
    unfold run_saves at hrun
    cases hs : VoteLedger.save db op.election op.ballot op.now with
    | none => rw [hs] at hrun; exact absurd hrun (by simp)
    | some r =>
      rw [hs] at hrun
      obtain ⟨he, hdb', _⟩ := save_eq_some db op.election op.ballot op.now r.1 r.2 (by rw [hs])
      have hlen := ih r.2 db' eid hrun
      rw [hlen, hdb', ledgerOf_append]
      have hel : (r.1.election == eid) = (op.election == eid) := by rw [he]; rfl
      by_cases h : (op.election == eid) = true
      · simp [List.filter_cons, h, hel]
        omega
      · rw [Bool.not_eq_true] at h
        simp [List.filter_cons, h, hel]

lemma run_saves_append (ops1 ops2 : List SaveOp) : ∀ db : DB,
    run_saves db (ops1 ++ ops2) =
      match run_saves db ops1 with
      | none => none
      | some d => run_saves d ops2 := by
  induction ops1 with
  | nil => intro db; rfl
  | cons op ops ih =>
    intro db
    rw [List.cons_append]
    show (match VoteLedger.save db op.election op.ballot op.now with
      | none => none
      | some r => run_saves r.2 (ops ++ ops2)) =
      match (match VoteLedger.save db op.election op.ballot op.now with
        | none => none
        | some r => run_saves r.2 ops) with
      | none => none
      | some d => run_saves d ops2
    cases VoteLedger.save db op.election op.ballot op.now with
    | none => rfl
    | some r => exact ih r.2

lemma chain_head (p : String) (l : List VoteEntry) (hc : chainedFrom p l) :
    ∀ e, l.head? = some e → e.previous_hash = p := by
  cases l with
  | nil => intro e he; simp at he
  | cons x xs =>
    intro e he
    simp only [List.head?_cons, Option.some.injEq] at he
    rw [← he]
    exact hc.1

lemma chain_pairs (p : String) (l : List VoteEntry) (hc : chainedFrom p l) :
    ∀ i (h1 : i + 1 < l.length),
      (l.get ⟨i + 1, h1⟩).previous_hash = (l.get ⟨i, Nat.lt_of_succ_lt h1⟩).current_hash := by
  induction l generalizing p with
  | nil => intro i h1; simp at h1
  | cons x xs ih =>
    obtain ⟨hx, hxs⟩ := hc
    intro i h1
    cases i with
    | zero =>
      cases xs with
      | nil => simp at h1
      | cons y ys => exact hxs.1
    | succ j => exact ih x.current_hash hxs j (Nat.lt_of_succ_lt_succ h1)

lemma chain_prevs (p : String) (l : List VoteEntry) (hc : chainedFrom p l) :
    l.map (fun e => e.previous_hash) =
      (p :: l.map (fun e => e.current_hash)).dropLast := by
  induction l generalizing p with
  | nil => rfl
  | cons x xs ih =>
    obtain ⟨hx, hxs⟩ := hc
    simp only [List.map_cons, List.dropLast_cons₂]
    rw [hx, ih x.current_hash hxs]

lemma chain_prevs_nodup (p : String) (l : List VoteEntry) (hc : chainedFrom p l)
    (hnodup : (l.map (fun e => e.current_hash)).Nodup)
    (hs : ∀ e ∈ l, e.current_hash ≠ p) :
    (l.map (fun e => e.previous_hash)).Nodup := by
  rw [chain_prevs p l hc]
  have hfull : (p :: l.map (fun e => e.current_hash)).Nodup := by
    rw [List.nodup_cons]
    refine ⟨?_, hnodup⟩
    intro hmem
    obtain ⟨e, he, heq⟩ := List.mem_map.mp hmem
    exact hs e he heq
  exact hfull.sublist (List.dropLast_sublist _)

/-- C1: every append links the new entry's `previous_hash` to the commit-order
tail's `current_hash` of its election, or to the all-zero genesis sentinel on
an empty chain; hence the first entry of an election carries the genesis
sentinel and every directly consecutive pair (P, E) in commit order satisfies
`E.previous_hash = P.current_hash`. -/
theorem C1_prev_hash_linkage (db0 : DB) (ops : List SaveOp) (db : DB)
    (h0 : db0.ledger = [])
    (hclock : ops.Pairwise (fun a b => a.now < b.now))
    (hrun : run_saves db0 ops = some db) :
    (∀ eid e, (ledgerOf db eid).head? = some e → e.previous_hash = genesis_hash) ∧
    (∀ eid i (h1 : i + 1 < (ledgerOf db eid).length),
      ((ledgerOf db eid).get ⟨i + 1, h1⟩).previous_hash =
        ((ledgerOf db eid).get ⟨i, Nat.lt_of_succ_lt h1⟩).current_hash) ∧
    (∀ (op : SaveOp) (e : VoteEntry) (db2 : DB),
      VoteLedger.save db op.election op.ballot op.now = some (e, db2) →
      e.previous_hash = chainTail genesis_hash (ledgerOf db op.election)) := by
  obtain ⟨bound, hInv⟩ :=
    inv_run ops db0 0 db (inv_empty db0 h0) (fun _ _ => Nat.zero_le _) hclock hrun
  refine ⟨fun eid => chain_head _ _ (hInv.chain eid),
          fun eid => chain_pairs _ _ (hInv.chain eid), ?_⟩
  intro op e db2 hs
  obtain ⟨he, _, _⟩ := save_eq_some db op.election op.ballot op.now e db2 hs
  rw [he]
  show (match VoteLedger.last_vote db op.election with
    | some lv => lv.current_hash
    | none => genesis_hash) = _
  rw [last_vote_eq_getLast db op.election (hInv.timesMono.filter _)]
  unfold chainTail
  cases (ledgerOf db op.election).getLast? <;> rfl

/-- C3: over any serialized sequence of successful appends from an empty
ledger, each election's entries form a single chain, of length equal to the
number of appends for that election, in which no two entries share a
`previous_hash` — granting that SHA-256 never returns the all-zero sentinel
on the chain's pre-images (collision-freeness the embedding cannot supply). -/
theorem C3_no_fork (db0 : DB) (ops : List SaveOp) (db : DB)
    (h0 : db0.ledger = [])
    (hclock : ops.Pairwise (fun a b => a.now < b.now))
    (hrun : run_saves db0 ops = some db)
    (hfresh : ∀ e ∈ db.ledger, e.current_hash ≠ genesis_hash) :
    ∀ eid,
      ((ledgerOf db eid).map (fun e => e.previous_hash)).Nodup ∧
      chainedFrom genesis_hash (ledgerOf db eid) ∧
      (ledgerOf db eid).length = (ops.filter (fun op => op.election == eid)).length := by
  obtain ⟨bound, hInv⟩ :=
    inv_run ops db0 0 db (inv_empty db0 h0) (fun _ _ => Nat.zero_le _) hclock hrun
  intro eid
  have hsub : List.Sublist ((ledgerOf db eid).map (fun e => e.current_hash))
      (db.ledger.map (fun e => e.current_hash)) :=
    (List.filter_sublist _).map _
  refine ⟨chain_prevs_nodup _ _ (hInv.chain eid) (hInv.nodupCur.sublist hsub) ?_,
          hInv.chain eid, ?_⟩
  · intro e he
    exact hfresh e (List.mem_of_mem_filter he)
  · have := run_ledger_len ops db0 db eid hrun
    rw [this]
    simp [ledgerOf, h0]

/-- Concrete election used by the witnesses. -/
def wElection : Election :=
  ⟨1, "Student Council 2025", "student-council-2025", [("President", ["Alice", "Bob"])], true⟩

/-- Concrete initial database with an empty ledger. -/
def wdbEmpty : DB := ⟨[wElection], [], []⟩

/-- Concrete one-append run. -/
def wops : List SaveOp := [⟨1, [("President", "Alice")], 10⟩]

/-- The database after the concrete run. -/
def wdb1 : DB := (run_saves wdbEmpty wops).getD wdbEmpty

/-- Witness for C1: the linkage theorem applied to the concrete one-append run. -/
theorem C1_witness :
    (∀ eid e, (ledgerOf wdb1 eid).head? = some e → e.previous_hash = genesis_hash) ∧
    (∀ eid i (h1 : i + 1 < (ledgerOf wdb1 eid).length),
      ((ledgerOf wdb1 eid).get ⟨i + 1, h1⟩).previous_hash =
        ((ledgerOf wdb1 eid).get ⟨i, Nat.lt_of_succ_lt h1⟩).current_hash) ∧
    (∀ (op : SaveOp) (e : VoteEntry) (db2 : DB),
      VoteLedger.save wdb1 op.election op.ballot op.now = some (e, db2) →
      e.previous_hash = chainTail genesis_hash (ledgerOf wdb1 op.election)) :=
  C1_prev_hash_linkage wdbEmpty wops wdb1 rfl (by simp [wops])
    (by set_option maxRecDepth 10000 in decide)

/-- Witness for C3: the no-fork theorem applied to the concrete one-append run
and its election. -/
theorem C3_witness :
    ((ledgerOf wdb1 1).map (fun e => e.previous_hash)).Nodup ∧
    chainedFrom genesis_hash (ledgerOf wdb1 1) ∧
    (ledgerOf wdb1 1).length = (wops.filter (fun op => op.election == 1)).length :=
  C3_no_fork wdbEmpty wops wdb1 rfl (by simp [wops])
    (by set_option maxRecDepth 10000 in decide)
    (by set_option maxRecDepth 10000 in decide) 1

/-! ### C2: the canonical serialization and the hash pre-image -/

lemma charListLt_irrefl : ∀ xs : List Char, charListLt xs xs = false := by
  intro xs
  induction xs with
  | nil => rfl
  | cons x xs ih =>
    unfold charListLt
    rw [if_neg (lt_irrefl x), if_neg (lt_irrefl x)]
    exact ih

lemma charListLt_trans : ∀ xs ys zs : List Char,
    charListLt xs ys = true → charListLt ys zs = true → charListLt xs zs = true := by
  intro xs
  induction xs with
  | nil =>
    intro ys zs h1 h2
    cases ys with
    | nil => exact absurd h1 (by simp [charListLt])
    | cons y ys =>
      cases zs with
      | nil => exact absurd h2 (by simp [charListLt])
      | cons z zs => rfl
  | cons x xs ih =>
    intro ys zs h1 h2
    cases ys with
    | nil => exact absurd h1 (by simp [charListLt])
    | cons y ys =>
      cases zs with
      | nil => exact absurd h2 (by simp [charListLt])
      | cons z zs =>
        unfold charListLt at h1 h2 ⊢
        by_cases hxy : x < y
        · rw [if_pos hxy] at h1
          by_cases hyz : y < z
          · rw [if_pos (lt_trans hxy hyz)]
          · rw [if_neg hyz] at h2
            by_cases hzy : z < y
            · rw [if_pos hzy] at h2; exact absurd h2 (by simp)
            · rw [if_neg hzy] at h2
              have : y = z := le_antisymm (le_of_not_lt hzy) (le_of_not_lt hyz)
              subst this
              rw [if_pos hxy]
        · rw [if_neg hxy] at h1
          by_cases hyx : y < x
          · rw [if_pos hyx] at h1; exact absurd h1 (by simp)
          · rw [if_neg hyx] at h1
            have hxyeq : x = y := le_antisymm (le_of_not_lt hyx) (le_of_not_lt hxy)
            subst hxyeq
            by_cases hyz : x < z
            · rw [if_pos hyz]
            · rw [if_neg hyz] at h2 ⊢
              by_cases hzy : z < x
              · rw [if_pos hzy] at h2; exact absurd h2 (by simp)
              · rw [if_neg hzy] at h2 ⊢
                exact ih ys zs h1 h2

lemma charListLt_asymm {xs ys : List Char} (h : charListLt xs ys = true) :
    charListLt ys xs = false := by
  by_cases h2 : charListLt ys xs = true
  · have := charListLt_trans xs ys xs h h2
    rw [charListLt_irrefl] at this
    exact absurd this (by simp)
  · simpa using h2

lemma charListLt_trichotomy : ∀ xs ys : List Char,
    charListLt xs ys = true ∨ charListLt ys xs = true ∨ xs = ys := by
  intro xs
  induction xs with
  | nil =>
    intro ys
    cases ys with
    | nil => right; right; rfl
    | cons y ys => left; rfl
  | cons x xs ih =>
    intro ys
    cases ys with
    | nil => right; left; rfl
    | cons y ys =>
      by_cases hxy : x < y
      · left; unfold charListLt; rw [if_pos hxy]
      · by_cases hyx : y < x
        · right; left; unfold charListLt; rw [if_pos hyx]
        · have hxyeq : x = y := le_antisymm (le_of_not_lt hyx) (le_of_not_lt hxy)
          subst hxyeq
          rcases ih ys with h | h | h
          · left; unfold charListLt; rw [if_neg hxy, if_neg hxy]; exact h
          · right; left; unfold charListLt; rw [if_neg hxy, if_neg hxy]; exact h
          · right; right; rw [h]

lemma string_ext_of_toList {a b : String} (h : a.toList = b.toList) : a = b := by
  cases a with
  | mk da =>
    cases b with
    | mk db =>
      simp only [String.toList] at h
      rw [h]

/-- Strict comparison of ballot items by key. -/
def keyLT (x y : String × String) : Prop := strLt x.1 y.1 = true

instance : IsTotal (String × String) keyLE := by
  refine ⟨fun a b => ?_⟩
  unfold keyLE
  by_cases h : strLt b.1 a.1 = true
  · right
    exact charListLt_asymm h
  · left
    simpa using h

instance : IsTrans (String × String) keyLE := by
  refine ⟨fun a b c h1 h2 => ?_⟩
  unfold keyLE strLt at h1 h2 ⊢
  by_cases h : charListLt c.1.toList a.1.toList = true
  · rcases charListLt_trichotomy c.1.toList b.1.toList with hcb | hbc | hcb
    · rw [h2] at hcb; exact absurd hcb (by simp)
    · have := charListLt_trans _ _ _ hbc h
      rw [h1] at this; exact absurd this (by simp)
    · rw [hcb] at h
      rw [h] at h1; exact absurd h1 (by simp)
  · simpa using h

instance : IsAntisymm (String × String) keyLT := by
  refine ⟨fun a b h1 h2 => ?_⟩
  unfold keyLT strLt at h1 h2
  have := charListLt_asymm h1
  rw [h2] at this
  exact absurd this (by simp)

lemma keyLT_of_keyLE_ne {a b : String × String} (hle : keyLE a b) (hne : a.1 ≠ b.1) :
    keyLT a b := by
  unfold keyLE strLt at hle
  unfold keyLT strLt
  rcases charListLt_trichotomy a.1.toList b.1.toList with h | h | h
  · exact h
  · rw [hle] at h; exact absurd h (by simp)
  · exact absurd (string_ext_of_toList h) hne

lemma insertionSort_perm_eq (b b' : List (String × String)) (hperm : b.Perm b')
    (hnd : (b.map Prod.fst).Nodup) :
    List.insertionSort keyLE b = List.insertionSort keyLE b' := by
  have hp : (List.insertionSort keyLE b).Perm (List.insertionSort keyLE b') :=
    (List.perm_insertionSort keyLE b).trans (hperm.trans (List.perm_insertionSort keyLE b').symm)
  have hstrict : ∀ l : List (String × String), (l.map Prod.fst).Nodup →
      List.Sorted keyLE l → List.Sorted keyLT l := by
    intro l hl hsle
    have hne : l.Pairwise (fun a b => a.1 ≠ b.1) := (List.pairwise_map).mp hl
    exact (hsle.and hne).imp (fun h => keyLT_of_keyLE_ne h.1 h.2)
  have hndb : ((List.insertionSort keyLE b).map Prod.fst).Nodup :=
    (((List.perm_insertionSort keyLE b).map Prod.fst).nodup_iff).mpr hnd
  have hndb' : ((List.insertionSort keyLE b').map Prod.fst).Nodup := by
    refine (((List.perm_insertionSort keyLE b').map Prod.fst).nodup_iff).mpr ?_
    exact ((hperm.map Prod.fst).nodup_iff).mp hnd
  exact List.eq_of_perm_of_sorted hp
    (hstrict _ hndb (List.sorted_insertionSort keyLE b))
    (hstrict _ hndb' (List.sorted_insertionSort keyLE b'))

/-- C2 (amended): `calculate_hash` is a pure function of the election pk, the
ballot, the timestamp and the previous hash; it hashes, with SHA-256 over
UTF-8 bytes rendered as lowercase hex, the concatenation — in this exact
order — of the election identifier, the ballot serialized with keys sorted
lexicographically (with Python's default `', '`/`': '` separators, i.e. a
space after each comma and colon), the timestamp rendering and the previous
hash; the digest does not depend on the ballot's key order. -/
theorem C2_canonical_hash (eid : Nat) (b b' : List (String × String)) (ts : Nat) (ph : String)
    (hperm : b.Perm b') (hnd : (b.map Prod.fst).Nodup) :
    VoteLedger.calculate_hash eid b ts ph =
      sha256hex (Nat.repr eid ++ jsonDumpsSorted b ++ isoformat ts ++ ph) ∧
    VoteLedger.calculate_hash eid b ts ph = VoteLedger.calculate_hash eid b' ts ph := by
  refine ⟨rfl, ?_⟩
  unfold VoteLedger.calculate_hash jsonDumpsSorted
  rw [insertionSort_perm_eq b b' hperm hnd]

/-- Counterexample for C2 as stated: the canonical ballot string is not
whitespace-free — `json.dumps(..., sort_keys=True)` keeps Python's default
separators, so a space follows every colon and comma even though no input
field contains one. -/
theorem C2_counterexample :
    jsonDumpsSorted [("VP", "Dana"), ("President", "Alice")] =
      "\x7b\"President\": \"Alice\", \"VP\": \"Dana\"\x7d" ∧
    jsonDumpsSorted [("VP", "Dana"), ("President", "Alice")] ≠
      "\x7b\"President\":\"Alice\",\"VP\":\"Dana\"\x7d" ∧
    ' ' ∈ (jsonDumpsSorted [("VP", "Dana"), ("President", "Alice")]).toList := by
  decide

/-- Witness for C2 at a concrete two-key ballot and its reordering. -/
theorem C2_witness :
    VoteLedger.calculate_hash 1 [("VP", "Dana"), ("President", "Alice")] 10 genesis_hash =
      sha256hex (Nat.repr 1 ++ jsonDumpsSorted [("VP", "Dana"), ("President", "Alice")] ++
        isoformat 10 ++ genesis_hash) ∧
    VoteLedger.calculate_hash 1 [("VP", "Dana"), ("President", "Alice")] 10 genesis_hash =
      VoteLedger.calculate_hash 1 [("President", "Alice"), ("VP", "Dana")] 10 genesis_hash :=
  C2_canonical_hash 1 [("VP", "Dana"), ("President", "Alice")]
    [("President", "Alice"), ("VP", "Dana")] 10 genesis_hash (by decide) (by decide)

/-! ### C4: duplicate rejection and transactional atomicity of the cast -/

lemma find?_mark_aux (eid : Nat) (vh : String) : ∀ l : List RegisteredVoter,
    (l.map (fun v =>
        if v.election == eid && v.voter_hash == vh then { v with has_voted := true }
        else v)).find? (fun v => v.election == eid && v.voter_hash == vh) =
      (l.find? (fun v => v.election == eid && v.voter_hash == vh)).map
        (fun v => { v with has_voted := true }) := by
  intro l
  induction l with
  | nil => rfl
  | cons v l ih =>
    by_cases h : (v.election == eid && v.voter_hash == vh) = true
    · have hfv : (if (v.election == eid && v.voter_hash == vh) = true
          then ({ v with has_voted := true } : RegisteredVoter) else v) =
          { v with has_voted := true } := if_pos h
      rw [List.map_cons, hfv, List.find?_cons, List.find?_cons]
      dsimp only
      rw [h]
      rfl
    · have hfv : (if (v.election == eid && v.voter_hash == vh) = true
          then ({ v with has_voted := true } : RegisteredVoter) else v) = v :=
        if_neg (by simp [h])
      rw [List.map_cons, hfv, List.find?_cons_of_neg _ (by simp [h]),
        List.find?_cons_of_neg _ (by simp [h]), ih]

lemma findVoter_markVoted (db : DB) (eid : Nat) (vh : String) :
    findVoter (markVoted db eid vh) eid vh =
      (findVoter db eid vh).map (fun v => { v with has_voted := true }) :=
  find?_mark_aux eid vh db.voters

lemma markVoted_ledger (db : DB) (eid : Nat) (vh : String) :
    (markVoted db eid vh).ledger = db.ledger := rfl

/-- C4: a cast for a voter credential whose `has_voted` flag is already set is
rejected by the serializer with the duplicate-vote error, leaving the database
(and hence the ledger length) unchanged; and in all cases the cast is atomic —
either it returns 201 and both the ledger gained exactly one entry and the
voter's flag is set, or the database is unchanged. -/
theorem C4_duplicate_rejected_atomic (db : DB) (req : CastRequest) (now : Nat)
    (election : Election) (voter : RegisteredVoter)
    (he : findElectionActive db req.election_id = some election)
    (hv : findVoter db election.id (hash_voter_data req.rfid req.fingerprint) = some voter) :
    (voter.has_voted = true →
      cast_vote db req now =
        (.badRequest "Duplicate vote: This voter has already cast a ballot.", db)) ∧
    (∀ out db', cast_vote db req now = (out, db') →
      (out = .created ∧
        (∃ e, db'.ledger = db.ledger ++ [e]) ∧
        findVoter db' election.id (hash_voter_data req.rfid req.fingerprint) =
          some { voter with has_voted := true }) ∨
      (out ≠ .created ∧ db' = db)) := by
  have hvh : voter.voter_hash = hash_voter_data req.rfid req.fingerprint := by
    have := List.find?_some hv
    simp only [Bool.and_eq_true, beq_iff_eq] at this
    exact this.2
  constructor
  · intro hvoted
    unfold cast_vote cast_validate
    simp only [he, hv]
    rw [if_pos hvoted]
  · intro out db' hcast
    unfold cast_vote cast_validate at hcast
    simp only [he, hv] at hcast
    by_cases hvoted : voter.has_voted = true
    · rw [if_pos hvoted] at hcast
      injection hcast with h1 h2
      right
      exact ⟨by rw [← h1]; simp, h2.symm⟩
    · rw [if_neg hvoted] at hcast
      dsimp only at hcast
      cases hs : VoteLedger.save db election.id req.votes now with
      | none =>
        rw [hs] at hcast
        injection hcast with h1 h2
        right
        exact ⟨by rw [← h1]; simp, h2.symm⟩
      | some r =>
        rw [hs] at hcast
        injection hcast with h1 h2
        left
        obtain ⟨hre, hrdb, _⟩ := save_eq_some db election.id req.votes now r.1 r.2 hs
        refine ⟨h1.symm, ⟨r.1, ?_⟩, ?_⟩
        · rw [← h2]
          rw [markVoted_ledger, hrdb]
        · rw [← h2, hvh]
          rw [findVoter_markVoted r.2 election.id (hash_voter_data req.rfid req.fingerprint)]
          have hfv2 : findVoter r.2 election.id (hash_voter_data req.rfid req.fingerprint) =
              some voter := by
            rw [hrdb]
            show findVoter { db with ledger := db.ledger ++ [r.1] } election.id
              (hash_voter_data req.rfid req.fingerprint) = some voter
            exact hv
          rw [hfv2, ← hvh]
          rfl

/-- Concrete database for the C4 witness: one active election, one voter who
has already voted. -/
def c4voter : RegisteredVoter := ⟨1, hash_voter_data "card1" "fp1", true⟩

/-- Concrete database for the C4 witness. -/
def c4db : DB := ⟨[wElection], [c4voter], []⟩

/-- Concrete duplicate cast request for the C4 witness. -/
def c4req : CastRequest := ⟨"card1", "fp1", "student-council-2025", [("President", "Alice")]⟩

/-- Witness for C4: the duplicate cast is rejected and the database is
unchanged. -/
theorem C4_witness :
    cast_vote c4db c4req 7 =
      (.badRequest "Duplicate vote: This voter has already cast a ballot.", c4db) :=
  (C4_duplicate_rejected_atomic c4db c4req 7 wElection c4voter rfl
    (by set_option maxRecDepth 10000 in decide)).1 rfl

/-! ### C5: the tally projection -/

/-- Looking a key up after a dict assignment. -/
lemma dictGet_dictSet {α : Type} (k k' : String) (v : α) : ∀ d : List (String × α),
    dictGet k (dictSet k' v d) = if k' == k then some v else dictGet k d := by
  intro d
  induction d with
  | nil => rfl
  | cons p rest ih =>
    obtain ⟨k0, v0⟩ := p
    by_cases h0 : k0 = k'
    · subst h0
      by_cases hk : k0 = k
      · subst hk
        simp [dictGet, dictSet]
      · simp [dictGet, dictSet, beq_iff_eq, hk]
    · by_cases hk : k0 = k
      · subst hk
        have hne : ¬ (k' = k0) := fun h => h0 h.symm
        simp [dictGet, dictSet, beq_iff_eq, h0, hne]
      · simp [dictGet, dictSet, beq_iff_eq, h0, hk, ih]

/-- Assigning to a present key leaves the (ordered) key list unchanged. -/
lemma dictSet_keys_of_mem {α : Type} (k : String) (v w : α) : ∀ d : List (String × α),
    dictGet k d = some w → (dictSet k v d).map Prod.fst = d.map Prod.fst := by
  intro d
  induction d with
  | nil => intro h; exact absurd h (by simp [dictGet])
  | cons p rest ih =>
    obtain ⟨k0, v0⟩ := p
    intro h
    unfold dictSet
    by_cases h0 : (k0 == k) = true
    · rw [if_pos h0]
      rfl
    · rw [Bool.not_eq_true] at h0
      rw [if_neg (by simp [h0])]
      unfold dictGet at h
      rw [h0] at h
      simp only [List.map_cons]
      rw [ih h]

/-- A key absent from every pair looks up to nothing. -/
lemma dictGet_eq_none {α : Type} (k : String) : ∀ d : List (String × α),
    (∀ p ∈ d, p.1 ≠ k) → dictGet k d = none := by
  intro d
  induction d with
  | nil => intro _; rfl
  | cons p rest ih =>
    intro h
    unfold dictGet
    rw [if_neg (by simp [h p (by simp)])]
    exact ih (fun q hq => h q (by simp [hq]))

/-- Assigning a fresh key appends the pair. -/
lemma dictSet_of_fresh {α : Type} (k : String) (v : α) : ∀ d : List (String × α),
    (∀ p ∈ d, p.1 ≠ k) → dictSet k v d = d ++ [(k, v)] := by
  intro d
  induction d with
  | nil => intro _; rfl
  | cons p rest ih =>
    intro h
    unfold dictSet
    rw [if_neg (by simp [h p (by simp)])]
    rw [ih (fun q hq => h q (by simp [hq]))]
    rfl

/-- Building a dict from distinct fresh keys is a map. -/
lemma fold_dictSet_zero (cs : List String) : ∀ acc : List (String × Nat),
    cs.Nodup → (∀ c ∈ cs, ∀ p ∈ acc, p.1 ≠ c) →
    cs.foldl (fun d c => dictSet c 0 d) acc = acc ++ cs.map (fun c => (c, 0)) := by
  induction cs with
  | nil => intro acc _ _; simp
  | cons c cs ih =>
    intro acc hnd hfresh
    show cs.foldl (fun d c => dictSet c 0 d) (dictSet c 0 acc) = _
    rw [dictSet_of_fresh c 0 acc (hfresh c (by simp))]
    rw [ih (acc ++ [(c, 0)]) (List.Nodup.of_cons hnd) ?_]
    · simp
    · intro c' hc' p hp
      rcases List.mem_append.mp hp with h | h
      · exact hfresh c' (by simp [hc']) p h
      · simp only [List.mem_singleton] at h
        subst h
        intro hcontra
        simp only at hcontra
        subst hcontra
        exact (List.nodup_cons.mp hnd).1 hc'

/-- `init_tally` over a well-formed schema is the zero table, in schema
order. -/
lemma init_tally_eq (schema : List (String × List String)) : ∀ acc : Tally,
    (schema.map Prod.fst).Nodup → (∀ pc ∈ schema, pc.2.Nodup) →
    (∀ pc ∈ schema, ∀ p ∈ acc, p.1 ≠ pc.1) →
    schema.foldl (fun t pc => dictSet pc.1 (pc.2.foldl (fun d c => dictSet c 0 d) []) t) acc =
      acc ++ schema.map (fun pc => (pc.1, pc.2.map (fun c => (c, 0)))) := by
  induction schema with
  | nil => intro acc _ _ _; simp
  | cons pc schema ih =>
    intro acc hnd hcd hfresh
    have hnd' : pc.1 ∉ schema.map Prod.fst ∧ (schema.map Prod.fst).Nodup := by
      rw [List.map_cons] at hnd
      exact List.nodup_cons.mp hnd
    show schema.foldl _ (dictSet pc.1 (pc.2.foldl (fun d c => dictSet c 0 d) []) acc) = _
    rw [fold_dictSet_zero pc.2 [] (hcd pc (by simp)) (by simp)]
    rw [dictSet_of_fresh pc.1 _ acc (hfresh pc (by simp))]
    rw [List.nil_append]
    rw [ih (acc ++ [(pc.1, pc.2.map (fun c => (c, 0)))]) ?_ ?_ ?_]
    · simp
    · exact hnd'.2
    · exact fun q hq => hcd q (by simp [hq])
    · intro q hq p hp
      rcases List.mem_append.mp hp with h | h
      · exact hfresh q (by simp [hq]) p h
      · simp only [List.mem_singleton] at h
        subst h
        intro hcontra
        simp only at hcontra
        have hq1 : q.1 ∈ schema.map Prod.fst := List.mem_map_of_mem Prod.fst hq
        rw [← hcontra] at hq1
        exact hnd'.1 hq1

/-- Nested lookup in the tally dict. -/
def lookup2 (t : Tally) (pos cand : String) : Option Nat :=
  match dictGet pos t with
  | none => none
  | some d => dictGet cand d

/-- The tally has exactly the schema's positions, in schema order, each with
exactly the schema's candidates for that position, in order. -/
def TallyShape (schema : List (String × List String)) (t : Tally) : Prop :=
  List.Forall₂ (fun pc pd => pc.1 = pd.1 ∧ pd.2.map Prod.fst = pc.2) schema t

lemma tally_add_unknown_pos (t : Tally) (pos cand : String) (h : dictGet pos t = none) :
    tally_add t pos cand = t := by
  unfold tally_add
  rw [h]

lemma tally_add_unknown_cand (t : Tally) (d : List (String × Nat)) (pos cand : String)
    (h1 : dictGet pos t = some d) (h2 : dictGet cand d = none) :
    tally_add t pos cand = t := by
  unfold tally_add
  rw [h1]
  dsimp only
  rw [h2]

lemma tallyShape_dictSet : ∀ (schema : List (String × List String)) (t : Tally)
    (pos : String) (d d' : List (String × Nat)),
    TallyShape schema t → dictGet pos t = some d → d'.map Prod.fst = d.map Prod.fst →
    TallyShape schema (dictSet pos d' t) := by
  intro schema t pos d d' hs
  induction hs generalizing d with
  | nil => intro hget _; exact absurd hget (by simp [dictGet])
  | cons hhead htail ih =>
    intro hget hkeys
    rename_i pc pd sr tr
    unfold dictSet
    by_cases hp : (pd.1 == pos) = true
    · rw [if_pos hp]
      unfold dictGet at hget
      rw [if_pos hp] at hget
      have hd : pd.2 = d := by injection hget
      refine List.Forall₂.cons ⟨hhead.1, ?_⟩ htail
      rw [hkeys, ← hd]
      exact hhead.2
    · rw [Bool.not_eq_true] at hp
      rw [if_neg (by simp [hp])]
      unfold dictGet at hget
      rw [hp] at hget
      exact List.Forall₂.cons hhead (ih d hget hkeys)

lemma tallyShape_tally_add (schema : List (String × List String)) (t : Tally)
    (p c : String) (hs : TallyShape schema t) :
    TallyShape schema (tally_add t p c) := by
  unfold tally_add
  cases hget : dictGet p t with
  | none => exact hs
  | some d =>
    dsimp only
    cases hgc : dictGet c d with
    | none => exact hs
    | some n =>
      exact tallyShape_dictSet schema t p d _ hs hget
        (dictSet_keys_of_mem c (n + 1) n d hgc)

lemma tallyShape_foldpairs (schema : List (String × List String))
    (pairs : List (String × String)) : ∀ t : Tally, TallyShape schema t →
    TallyShape schema (pairs.foldl (fun t' pc => tally_add t' pc.1 pc.2) t) := by
  induction pairs with
  | nil => intro t hs; exact hs
  | cons pc pairs ih =>
    intro t hs
    exact ih (tally_add t pc.1 pc.2) (tallyShape_tally_add schema t pc.1 pc.2 hs)

lemma lookup2_tally_add (t : Tally) (pos cand p c : String) (n : Nat)
    (h : lookup2 t pos cand = some n) :
    lookup2 (tally_add t p c) pos cand =
      some (n + if p = pos ∧ c = cand then 1 else 0) := by
  unfold lookup2 at h
  cases hgp : dictGet pos t with
  | none => rw [hgp] at h; exact absurd h (by simp)
  | some d =>
    rw [hgp] at h
    dsimp only at h
    unfold tally_add
    cases hp : dictGet p t with
    | none =>
      have hppos : ¬ (p = pos ∧ c = cand) := by
        rintro ⟨h1, _⟩
        subst h1
        rw [hp] at hgp
        exact absurd hgp (by simp)
      unfold lookup2
      rw [hgp]
      dsimp only
      rw [h, if_neg hppos]
      rfl
    | some dp =>
      dsimp only
      cases hc : dictGet c dp with
      | none =>
        have hppos : ¬ (p = pos ∧ c = cand) := by
          rintro ⟨h1, h2⟩
          subst h1; subst h2
          rw [hp] at hgp
          have hd : dp = d := by injection hgp
          subst hd
          rw [hc] at h
          exact absurd h (by simp)
        unfold lookup2
        rw [hgp]
        dsimp only
        rw [h, if_neg hppos]
        rfl
      | some m =>
        dsimp only
        unfold lookup2
        rw [dictGet_dictSet]
        by_cases hpp : p = pos
        · subst hpp
          rw [if_pos (beq_self_eq_true p)]
          dsimp only
          have hd : dp = d := by rw [hp] at hgp; injection hgp
          subst hd
          rw [dictGet_dictSet]
          by_cases hcc : c = cand
          · subst hcc
            rw [if_pos (beq_self_eq_true c)]
            have hm : m = n := by rw [hc] at h; injection h
            subst hm
            rw [if_pos ⟨rfl, rfl⟩]
          · rw [if_neg (by simp [hcc]), h, if_neg (by rintro ⟨_, h2⟩; exact hcc h2)]
            rfl
        · rw [if_neg (by simp [hpp]), hgp]
          dsimp only
          rw [h, if_neg (by rintro ⟨h1, _⟩; exact hpp h1)]
          rfl

lemma lookup2_foldpairs (pos cand : String) (pairs : List (String × String)) :
    ∀ (t : Tally) (n : Nat), lookup2 t pos cand = some n →
    lookup2 (pairs.foldl (fun t' pc => tally_add t' pc.1 pc.2) t) pos cand =
      some (n + pairs.countP (fun pc => pc.1 == pos && pc.2 == cand)) := by
  induction pairs with
  | nil => intro t n h; simpa using h
  | cons pc pairs ih =>
    intro t n h
    have hstep := lookup2_tally_add t pos cand pc.1 pc.2 n h
    show lookup2 (pairs.foldl _ (tally_add t pc.1 pc.2)) pos cand = _
    rw [ih (tally_add t pc.1 pc.2) _ hstep]
    congr 1
    rw [List.countP_cons]
    by_cases hm : pc.1 = pos ∧ pc.2 = cand
    · rw [if_pos hm]
      have hb : (pc.1 == pos && pc.2 == cand) = true := by
        simp [beq_iff_eq, hm.1, hm.2]
      rw [hb, if_pos rfl]
      omega
    · rw [if_neg hm]
      have hb : (pc.1 == pos && pc.2 == cand) = false := by
        rcases not_and_or.mp hm with h1 | h1 <;> simp [beq_iff_eq, h1]
      rw [hb, if_neg Bool.false_ne_true]
      omega

lemma lookup2_foldballots (pos cand : String) (ballots : List (List (String × String))) :
    ∀ (t : Tally) (n : Nat), lookup2 t pos cand = some n →
    lookup2 (ballots.foldl (fun t b => b.foldl (fun t' pc => tally_add t' pc.1 pc.2) t) t)
        pos cand =
      some (n + (ballots.map
        (fun b => b.countP (fun pc => pc.1 == pos && pc.2 == cand))).sum) := by
  induction ballots with
  | nil => intro t n h; simpa using h
  | cons b ballots ih =>
    intro t n h
    have hstep := lookup2_foldpairs pos cand b t n h
    show lookup2 (ballots.foldl _ (b.foldl _ t)) pos cand = _
    rw [ih (b.foldl _ t) _ hstep]
    congr 1
    rw [List.map_cons, List.sum_cons]
    omega

lemma dictGet_init_of_mem (pos : String) (cs : List String) :
    ∀ schema : List (String × List String), (schema.map Prod.fst).Nodup →
    (pos, cs) ∈ schema →
    dictGet pos (schema.map (fun pc => (pc.1, pc.2.map (fun c => (c, 0))))) =
      some (cs.map (fun c => (c, 0))) := by
  intro schema
  induction schema with
  | nil => intro _ h; exact absurd h (by simp)
  | cons pc rest ih =>
    intro hnd hmem
    rw [List.map_cons] at hnd
    obtain ⟨hhead, htail⟩ := List.nodup_cons.mp hnd
    rcases List.mem_cons.mp hmem with h | h
    · rw [← h]
      rw [List.map_cons]
      simp only [dictGet]
      rw [if_pos (beq_self_eq_true pos)]
    · rw [List.map_cons]
      simp only [dictGet]
      have hne : ¬ (pc.1 == pos) = true := by
        intro hcontra
        have : pc.1 = pos := beq_iff_eq.mp hcontra
        apply hhead
        rw [this]
        exact List.mem_map_of_mem Prod.fst h
      rw [if_neg hne]
      exact ih htail h

lemma dictGet_zero_of_mem (cand : String) : ∀ cs : List String, cand ∈ cs →
    dictGet cand (cs.map (fun c => (c, 0))) = some 0 := by
  intro cs
  induction cs with
  | nil => intro h; exact absurd h (by simp)
  | cons c0 cs ih =>
    intro hmem
    rw [List.map_cons]
    simp only [dictGet]
    by_cases h : (c0 == cand) = true
    · rw [if_pos h]
    · rw [if_neg h]
      rcases List.mem_cons.mp hmem with h1 | h1
      · subst h1
        rw [beq_self_eq_true] at h
        exact absurd rfl h
      · exact ih h1

lemma tally_rows_map (schema : List (String × List String)) :
    tally_rows (schema.map (fun pc => (pc.1, pc.2.map (fun c => (c, 0))))) =
      schema.foldr (fun pc acc => pc.2.map (fun c => TallyRow.mk pc.1 c 0) ++ acc) [] := by
  induction schema with
  | nil => rfl
  | cons pc rest ih =>
    show (pc.2.map (fun c => (c, 0))).map (fun cn => TallyRow.mk pc.1 cn.1 cn.2) ++ _ = _
    rw [List.map_map, ih]
    rfl

/-- C5: the projection initializes every schema (position, candidate) pair to
0 in schema order; a single left-to-right scan bumps only pairs present in the
tally (hence in the schema), silently ignoring unknown positions or
candidates; the result keeps schema declaration order, and each kept pair's
count equals the number of its occurrences across the ballots; over zero
ballots every configured pair is reported with count 0 in schema order. -/
theorem C5_tally_projection (schema : List (String × List String))
    (ballots : List (List (String × String)))
    (hnd : (schema.map Prod.fst).Nodup)
    (hcd : ∀ pc ∈ schema, pc.2.Nodup) :
    tally_rows (tally_of schema []) =
      schema.foldr (fun pc acc => pc.2.map (fun c => TallyRow.mk pc.1 c 0) ++ acc) [] ∧
    TallyShape schema (tally_of schema ballots) ∧
    (∀ (t : Tally) (pos cand : String), dictGet pos t = none → tally_add t pos cand = t) ∧
    (∀ (t : Tally) (d : List (String × Nat)) (pos cand : String),
      dictGet pos t = some d → dictGet cand d = none → tally_add t pos cand = t) ∧
    (∀ (pos : String) (cs : List String) (cand : String),
      (pos, cs) ∈ schema → cand ∈ cs →
      lookup2 (tally_of schema ballots) pos cand =
        some ((ballots.map
          (fun b => b.countP (fun pc => pc.1 == pos && pc.2 == cand))).sum)) := by
  have hinit : init_tally schema =
      schema.map (fun pc => (pc.1, pc.2.map (fun c => (c, 0)))) := by
    have := init_tally_eq schema [] hnd hcd (by simp)
    simpa [init_tally] using this
  refine ⟨?_, ?_, tally_add_unknown_pos, tally_add_unknown_cand, ?_⟩
  · show tally_rows (init_tally schema) = _
    rw [hinit, tally_rows_map]
  · unfold tally_of
    apply (by
      intro t hs
      induction ballots generalizing t with
      | nil => exact hs
      | cons b ballots ih =>
        exact ih _ (tallyShape_foldpairs schema b t hs) :
      ∀ t : Tally, TallyShape schema t → TallyShape schema (ballots.foldl _ t))
    rw [hinit]
    unfold TallyShape
    rw [List.forall₂_map_right_iff]
    rw [List.forall₂_same]
    intro pc _
    refine ⟨rfl, ?_⟩
    show List.map Prod.fst (List.map (fun c => (c, (0 : Nat))) pc.2) = pc.2
    rw [List.map_map]
    have hcomp : (Prod.fst ∘ fun c : String => (c, (0 : Nat))) = fun c => c := rfl
    rw [hcomp, List.map_id']
  · intro pos cs cand hmem hc
    have h0 : lookup2 (init_tally schema) pos cand = some 0 := by
      unfold lookup2
      rw [hinit, dictGet_init_of_mem pos cs schema hnd hmem]
      dsimp only
      rw [dictGet_zero_of_mem cand cs hc]
    have := lookup2_foldballots pos cand ballots (init_tally schema) 0 h0
    unfold tally_of
    rw [this]
    simp

/-- Witness for C5 at a concrete schema and ballot list containing an unknown
position and an unknown candidate. -/
theorem C5_witness :
    tally_rows (tally_of [("President", ["Alice", "Bob"]), ("VP", ["Carol"])] []) =
      [("President", ["Alice", "Bob"]), ("VP", ["Carol"])].foldr
        (fun pc acc => pc.2.map (fun c => TallyRow.mk pc.1 c 0) ++ acc) [] ∧
    TallyShape [("President", ["Alice", "Bob"]), ("VP", ["Carol"])]
      (tally_of [("President", ["Alice", "Bob"]), ("VP", ["Carol"])]
        [[("President", "Alice"), ("VP", "Carol")], [("Mayor", "Zed"), ("President", "Eve")]]) ∧
    (∀ (t : Tally) (pos cand : String), dictGet pos t = none → tally_add t pos cand = t) ∧
    (∀ (t : Tally) (d : List (String × Nat)) (pos cand : String),
      dictGet pos t = some d → dictGet cand d = none → tally_add t pos cand = t) ∧
    (∀ (pos : String) (cs : List String) (cand : String),
      (pos, cs) ∈ [("President", ["Alice", "Bob"]), ("VP", ["Carol"])] → cand ∈ cs →
      lookup2 (tally_of [("President", ["Alice", "Bob"]), ("VP", ["Carol"])]
          [[("President", "Alice"), ("VP", "Carol")], [("Mayor", "Zed"), ("President", "Eve")]])
          pos cand =
        some (([[("President", "Alice"), ("VP", "Carol")],
            [("Mayor", "Zed"), ("President", "Eve")]].map
          (fun b => b.countP (fun pc => pc.1 == pos && pc.2 == cand))).sum)) :=
  C5_tally_projection [("President", ["Alice", "Bob"]), ("VP", ["Carol"])]
    [[("President", "Alice"), ("VP", "Carol")], [("Mayor", "Zed"), ("President", "Eve")]]
    (by decide) (by decide)

/-! ### C6: soundness of the spec-modelled `verifyChain` on reachable states -/

lemma chain_get_zero (p : String) : ∀ (l : List VoteEntry) (h : 0 < l.length),
    chainedFrom p l → (l.get ⟨0, h⟩).previous_hash = p := by
  intro l h hc
  cases l with
  | nil => simp at h
  | cons x rest => exact hc.1

lemma chain_prev_mem : ∀ (l : List VoteEntry) (p : String), chainedFrom p l →
    ∀ e ∈ l, e.previous_hash = p ∨ ∃ y ∈ l, e.previous_hash = y.current_hash := by
  intro l
  induction l with
  | nil => intro _ _ e he; exact absurd he (by simp)
  | cons x rest ih =>
    intro p hc e he
    rcases List.mem_cons.mp he with h | h
    · subst h
      left
      exact hc.1
    · rcases ih x.current_hash hc.2 e h with h1 | h1
      · right
        exact ⟨x, by simp, h1⟩
      · right
        obtain ⟨y, hy, hey⟩ := h1
        exact ⟨y, by simp [hy], hey⟩

/-- C6: on every state reached by serialized successful appends from an empty
ledger, the spec-modelled `verify_chain` returns `true` for every election,
and recomputing each stored entry's hash from its stored fields matches the
stored `current_hash` — granting that SHA-256 never emits the all-zero
sentinel on the chain's pre-images. -/
theorem C6_verify_chain_sound (db0 : DB) (ops : List SaveOp) (db : DB)
    (h0 : db0.ledger = [])
    (hclock : ops.Pairwise (fun a b => a.now < b.now))
    (hrun : run_saves db0 ops = some db)
    (hfresh : ∀ e ∈ db.ledger, e.current_hash ≠ genesis_hash) :
    (∀ eid, verify_chain db eid = true) ∧
    ∀ e ∈ db.ledger,
      VoteLedger.calculate_hash e.election e.ballot_data e.timestamp e.previous_hash =
        e.current_hash := by
  obtain ⟨bound, hInv⟩ :=
    inv_run ops db0 0 db (inv_empty db0 h0) (fun _ _ => Nat.zero_le _) hclock hrun
  refine ⟨?_, fun e he => (hInv.hashComputed e he).symm⟩
  intro eid
  have hpw : (ledgerOf db eid).Pairwise (fun a b => a.timestamp < b.timestamp) :=
    hInv.timesMono.filter _
  have hsorted : List.Sorted (fun a b : VoteEntry => a.timestamp ≤ b.timestamp)
      (ledgerOf db eid) := hpw.imp (fun h => Nat.le_of_lt h)
  have hlist : listEntries db eid = ledgerOf db eid := hsorted.insertionSort_eq
  unfold verify_chain
  rw [hlist]
  have hchain : chainedFrom genesis_hash (ledgerOf db eid) := hInv.chain eid
  have hsub : ∀ e ∈ ledgerOf db eid, e ∈ db.ledger := fun e he => List.mem_of_mem_filter he
  have hnodupcur : ((ledgerOf db eid).map (fun e => e.current_hash)).Nodup :=
    hInv.nodupCur.sublist ((List.filter_sublist _).map _)
  have hfresh' : ∀ e ∈ ledgerOf db eid, e.current_hash ≠ genesis_hash :=
    fun e he => hfresh e (hsub e he)
  simp only [Bool.and_eq_true]
  refine ⟨⟨⟨⟨?_, ?_⟩, ?_⟩, ?_⟩, ?_⟩
  · rw [List.all_eq_true]
    intro e he
    rw [beq_iff_eq]
    exact (hInv.hashComputed e (hsub e he)).symm
  · cases hse : ledgerOf db eid with
    | nil => simp
    | cons e0 rest =>
      rw [Bool.or_eq_true]
      right
      rw [hse] at hchain hfresh'
      have hrest : List.filter (fun e => e.previous_hash == genesis_hash) rest = [] := by
        rw [List.filter_eq_nil_iff]
        intro e he
        rw [beq_iff_eq]
        rcases chain_prev_mem rest e0.current_hash hchain.2 e he with h | h
        · rw [h]
          exact hfresh' e0 (by simp)
        · obtain ⟨y, hy, hey⟩ := h
          rw [hey]
          exact hfresh' y (by simp [hy])
      have hfc : List.filter (fun e => e.previous_hash == genesis_hash) (e0 :: rest) =
          e0 :: List.filter (fun e => e.previous_hash == genesis_hash) rest :=
        List.filter_cons_of_pos (beq_iff_eq.mpr hchain.1)
      rw [hfc, hrest]
      rfl
  · rw [List.all_eq_true]
    intro e he
    rw [Bool.or_eq_true]
    obtain ⟨⟨j, hj⟩, hget⟩ := List.mem_iff_get.mp he
    cases j with
    | zero =>
      left
      rw [beq_iff_eq, ← hget]
      exact chain_get_zero genesis_hash (ledgerOf db eid) hj hchain
    | succ j' =>
      right
      have hj' : j' < (ledgerOf db eid).length := Nat.lt_of_succ_lt hj
      have hprev : e.previous_hash =
          ((ledgerOf db eid).get ⟨j', hj'⟩).current_hash := by
        rw [← hget]
        exact chain_pairs genesis_hash (ledgerOf db eid) hchain j' hj
      have hdecomp : ledgerOf db eid =
          (ledgerOf db eid).take j' ++ (ledgerOf db eid).get ⟨j', hj'⟩ ::
            (ledgerOf db eid).drop (j' + 1) := by
        conv_lhs => rw [← List.take_append_drop j' (ledgerOf db eid)]
        rw [List.drop_eq_get_cons hj']
      have hmaps : ((ledgerOf db eid).map (fun x => x.current_hash)) =
          ((ledgerOf db eid).take j').map (fun x => x.current_hash) ++
            ((ledgerOf db eid).get ⟨j', hj'⟩).current_hash ::
            ((ledgerOf db eid).drop (j' + 1)).map (fun x => x.current_hash) := by
        conv_lhs => rw [hdecomp]
        rw [List.map_append, List.map_cons]
      rw [hmaps] at hnodupcur
      obtain ⟨hnd1, hnd2, hdisj⟩ := List.nodup_append.mp hnodupcur
      have hnotint : ((ledgerOf db eid).get ⟨j', hj'⟩).current_hash ∉
          ((ledgerOf db eid).take j').map (fun x => x.current_hash) :=
        fun hmem => hdisj hmem (by simp)
      have hnotind : ((ledgerOf db eid).get ⟨j', hj'⟩).current_hash ∉
          ((ledgerOf db eid).drop (j' + 1)).map (fun x => x.current_hash) :=
        (List.nodup_cons.mp hnd2).1
      have htlt : ((ledgerOf db eid).get ⟨j', hj'⟩).timestamp < e.timestamp := by
        rw [← hget]
        exact List.pairwise_iff_get.mp hpw ⟨j', hj'⟩ ⟨j' + 1, hj⟩ (by simp)
      have hqm : (((ledgerOf db eid).get ⟨j', hj'⟩).current_hash == e.previous_hash &&
          decide (((ledgerOf db eid).get ⟨j', hj'⟩).timestamp < e.timestamp)) = true := by
        rw [Bool.and_eq_true]
        exact ⟨beq_iff_eq.mpr hprev.symm, decide_eq_true htlt⟩
      have htake0 : ((ledgerOf db eid).take j').filter
          (fun p => p.current_hash == e.previous_hash &&
            decide (p.timestamp < e.timestamp)) = [] := by
        rw [List.filter_eq_nil_iff]
        intro x hx hcontra
        rw [Bool.and_eq_true] at hcontra
        have hxc : x.current_hash = e.previous_hash := beq_iff_eq.mp hcontra.1
        apply hnotint
        rw [← hprev, ← hxc]
        exact List.mem_map_of_mem _ hx
      have hdrop0 : ((ledgerOf db eid).drop (j' + 1)).filter
          (fun p => p.current_hash == e.previous_hash &&
            decide (p.timestamp < e.timestamp)) = [] := by
        rw [List.filter_eq_nil_iff]
        intro x hx hcontra
        rw [Bool.and_eq_true] at hcontra
        have hxc : x.current_hash = e.previous_hash := beq_iff_eq.mp hcontra.1
        apply hnotind
        rw [← hprev, ← hxc]
        exact List.mem_map_of_mem _ hx
      have hfilter : (ledgerOf db eid).filter
          (fun p => p.current_hash == e.previous_hash &&
            decide (p.timestamp < e.timestamp)) = [(ledgerOf db eid).get ⟨j', hj'⟩] := by
        conv_lhs => rw [hdecomp]
        have hfc2 : List.filter (fun p => p.current_hash == e.previous_hash &&
              decide (p.timestamp < e.timestamp))
            ((ledgerOf db eid).get ⟨j', hj'⟩ :: (ledgerOf db eid).drop (j' + 1)) =
            (ledgerOf db eid).get ⟨j', hj'⟩ :: ((ledgerOf db eid).drop (j' + 1)).filter
              (fun p => p.current_hash == e.previous_hash &&
                decide (p.timestamp < e.timestamp)) :=
          List.filter_cons_of_pos hqm
        rw [List.filter_append, htake0, hfc2, hdrop0]
        rfl
      rw [hfilter]
      rfl
  · rw [List.all_eq_true]
    intro h hmem
    have hnodupprev : ((ledgerOf db eid).map (fun e => e.previous_hash)).Nodup :=
      chain_prevs_nodup _ _ hchain hnodupcur hfresh'
    have hcount : List.count h ((ledgerOf db eid).map (fun e => e.previous_hash)) = 1 :=
      List.count_eq_one_of_mem hnodupprev hmem
    have hlen : ((ledgerOf db eid).filter (fun e => e.previous_hash == h)).length =
        List.count h ((ledgerOf db eid).map (fun e => e.previous_hash)) := by
      rw [← List.countP_eq_length_filter, List.count, List.countP_map]
      rfl
    rw [hlen, hcount]
    rfl
  · rw [List.all_eq_true]
    intro e he
    have hcount : List.count e.current_hash (db.ledger.map (fun x => x.current_hash)) = 1 :=
      List.count_eq_one_of_mem hInv.nodupCur (List.mem_map_of_mem _ (hsub e he))
    have hlen : (db.ledger.filter (fun x => x.current_hash == e.current_hash)).length =
        List.count e.current_hash (db.ledger.map (fun x => x.current_hash)) := by
      rw [← List.countP_eq_length_filter, List.count, List.countP_map]
      rfl
    rw [hlen, hcount]
    rfl

/-- Witness for C6: the soundness theorem applied to the concrete one-append
run. -/
theorem C6_witness :
    (∀ eid, verify_chain wdb1 eid = true) ∧
    ∀ e ∈ wdb1.ledger,
      VoteLedger.calculate_hash e.election e.ballot_data e.timestamp e.previous_hash =
        e.current_hash :=
  C6_verify_chain_sound wdbEmpty wops wdb1 rfl (by simp [wops])
    (by set_option maxRecDepth 10000 in decide)
    (by set_option maxRecDepth 10000 in decide)

/-! ### C7: the window between the tail read and the insert -/

/-- Composition fact: `save` is exactly its tail-reading phase followed by its
insert phase, with nothing in between — no lock, no conflict check, no retry. -/
lemma save_phases (db : DB) (eid : Nat) (ballot : List (String × String)) (now : Nat) :
    VoteLedger.save db eid ballot now =
      match VoteLedger.save_commit_phase db (VoteLedger.save_read_phase db eid ballot now) with
      | none => none
      | some db' => some (VoteLedger.save_read_phase db eid ballot now, db') := rfl

/-- Concrete database for the C7 interleaving: one election, empty ledger. -/
def c7db : DB := ⟨[⟨1, "Race", "race", [("President", ["Alice", "Bob"])], true⟩], [], []⟩

/-- First pending append; it read the empty chain's tail. -/
def c7p1 : VoteEntry := VoteLedger.save_read_phase c7db 1 [("President", "Alice")] 10

/-- Second pending append; it also read the empty chain's tail, before the
first committed. -/
def c7p2 : VoteEntry := VoteLedger.save_read_phase c7db 1 [("President", "Bob")] 11

/-- C7 (evidence of the code gap): under the interleaving
read1, read2, commit1, commit2 of two appends for the same election — nothing
in the source serializes the window between the tail read and the insert —
both inserts succeed, no error is reported (the source defines no
ConcurrencyConflict and has no retry loop), and the chain is forked: both
committed entries carry the genesis `previous_hash`. -/
theorem C7_interleaved_appends_fork :
    ∃ dbA dbB : DB,
      VoteLedger.save_commit_phase c7db c7p1 = some dbA ∧
      VoteLedger.save_commit_phase dbA c7p2 = some dbB ∧
      (ledgerOf dbB 1).map (fun e => e.previous_hash) = [genesis_hash, genesis_hash] ∧
      ¬ ((ledgerOf dbB 1).map (fun e => e.previous_hash)).Nodup := by
  refine ⟨(VoteLedger.save_commit_phase c7db c7p1).getD c7db,
    (VoteLedger.save_commit_phase
      ((VoteLedger.save_commit_phase c7db c7p1).getD c7db) c7p2).getD c7db, ?_⟩
  set_option maxRecDepth 10000 in decide

/-! ### C8: no ballot-schema validation at cast time -/

/-- Concrete election for C8, whose schema declares only President. -/
def c8elec : Election := ⟨1, "Race8", "race8", [("President", ["Alice", "Bob"])], true⟩

/-- Concrete database for C8: the election and one fresh registered voter. -/
def c8db : DB := ⟨[c8elec], [⟨1, hash_voter_data "card8" "fp8", false⟩], []⟩

/-- Concrete request for C8 whose ballot references the undeclared position
Mayor. -/
def c8req : CastRequest := ⟨"card8", "fp8", "race8", [("Mayor", "Zed")]⟩

/-- Counterexample for C8 as stated: a cast whose ballot references only the
position Mayor — absent from the schema — is accepted with 201 and appended to
the ledger verbatim, so a ledger entry does reference an unknown position.
`CastBallotSerializer.validate` never inspects `votes` (a TODO in the
source). -/
theorem C8_counterexample :
    (cast_vote c8db c8req 5).1 = CastOutcome.created ∧
    ((cast_vote c8db c8req 5).2.ledger.map (fun e => e.ballot_data)) = [[("Mayor", "Zed")]] ∧
    ∀ pc ∈ c8elec.positions_json, pc.1 ≠ "Mayor" := by
  set_option maxRecDepth 10000 in decide

/-- C8 (amended): the cast path validates only the election and the voter
credential, never the ballot content: whenever those checks pass and the
insert succeeds, the cast returns 201 and appends the `votes` payload
verbatim, whatever positions or candidates it references; unknown references
are discarded only later, at tally time. -/
theorem C8_no_cast_time_validation (db : DB) (req : CastRequest) (now : Nat)
    (election : Election) (voter : RegisteredVoter)
    (he : findElectionActive db req.election_id = some election)
    (hv : findVoter db election.id (hash_voter_data req.rfid req.fingerprint) = some voter)
    (hnv : voter.has_voted = false)
    (e : VoteEntry) (db1 : DB)
    (hins : VoteLedger.save db election.id req.votes now = some (e, db1)) :
    (cast_vote db req now).1 = CastOutcome.created ∧
    (cast_vote db req now).2.ledger = db.ledger ++ [e] ∧
    e.ballot_data = req.votes := by
  obtain ⟨hre, hrdb, _⟩ := save_eq_some db election.id req.votes now e db1 hins
  unfold cast_vote cast_validate
  simp only [he, hv]
  rw [if_neg (by rw [hnv]; simp)]
  dsimp only
  rw [hins]
  refine ⟨rfl, ?_, by rw [hre]; rfl⟩
  show (markVoted db1 election.id voter.voter_hash).ledger = _
  rw [markVoted_ledger, hrdb]

/-- Witness for C8: the amended theorem applied at the concrete C8 inputs. -/
theorem C8_witness :
    (cast_vote c8db c8req 5).1 = CastOutcome.created ∧
    (cast_vote c8db c8req 5).2.ledger =
      c8db.ledger ++ [VoteLedger.save_read_phase c8db 1 [("Mayor", "Zed")] 5] ∧
    (VoteLedger.save_read_phase c8db 1 [("Mayor", "Zed")] 5).ballot_data =
      [("Mayor", "Zed")] :=
  C8_no_cast_time_validation c8db c8req 5 c8elec ⟨1, hash_voter_data "card8" "fp8", false⟩
    rfl (by set_option maxRecDepth 10000 in decide) rfl
    (VoteLedger.save_read_phase c8db 1 [("Mayor", "Zed")] 5)
    { c8db with ledger := c8db.ledger ++ [VoteLedger.save_read_phase c8db 1 [("Mayor", "Zed")] 5] }
    (by set_option maxRecDepth 10000 in decide)

/-! ### C9: the subscribe snapshot -/

lemma dictSet_val_prop {α : Type} (P : α → Prop) (k : String) (v : α) :
    ∀ d : List (String × α), (∀ p ∈ d, P p.2) → P v → ∀ p ∈ dictSet k v d, P p.2 := by
  intro d
  induction d with
  | nil =>
    intro _ hv p hp
    simp only [dictSet, List.mem_singleton] at hp
    rw [hp]
    exact hv
  | cons q rest ih =>
    intro hd hv p hp
    unfold dictSet at hp
    by_cases h : (q.1 == k) = true
    · rw [if_pos h] at hp
      rcases List.mem_cons.mp hp with h1 | h1
      · rw [h1]
        exact hv
      · exact hd p (by simp [h1])
    · rw [if_neg h] at hp
      rcases List.mem_cons.mp hp with h1 | h1
      · rw [h1]
        exact hd q (by simp)
      · exact ih (fun r hr => hd r (by simp [hr])) hv p h1

/-- Every value in a zero-initialized candidate dict is zero. -/
lemma zero_dict_vals (cs : List String) : ∀ d : List (String × Nat),
    (∀ p ∈ d, p.2 = 0) → ∀ p ∈ cs.foldl (fun d c => dictSet c 0 d) d, p.2 = 0 := by
  induction cs with
  | nil => intro d hd; exact hd
  | cons c cs ih =>
    intro d hd
    exact ih (dictSet c 0 d) (dictSet_val_prop (fun n => n = 0) c 0 d hd rfl)

/-- Every count in a freshly initialized tally is zero, whatever the schema. -/
lemma init_tally_zero (schema : List (String × List String)) : ∀ acc : Tally,
    (∀ pd ∈ acc, ∀ cn ∈ pd.2, cn.2 = 0) →
    ∀ pd ∈ schema.foldl
        (fun t pc => dictSet pc.1 (pc.2.foldl (fun d c => dictSet c 0 d) []) t) acc,
      ∀ cn ∈ pd.2, cn.2 = 0 := by
  induction schema with
  | nil => intro acc hacc; exact hacc
  | cons pc schema ih =>
    intro acc hacc
    apply ih
    exact dictSet_val_prop (fun d => ∀ cn ∈ d, cn.2 = 0) pc.1 _ acc hacc
      (zero_dict_vals pc.2 [] (by simp))

lemma mem_tally_rows : ∀ (t : Tally) (row : TallyRow), row ∈ tally_rows t →
    ∃ pd ∈ t, ∃ cn ∈ pd.2, row = ⟨pd.1, cn.1, cn.2⟩ := by
  intro t
  induction t with
  | nil => intro row hrow; exact absurd hrow (by simp [tally_rows])
  | cons pd rest ih =>
    intro row hrow
    unfold tally_rows at hrow
    rcases List.mem_append.mp hrow with h | h
    · obtain ⟨cn, hcn, hr⟩ := List.mem_map.mp h
      exact ⟨pd, by simp, cn, hcn, hr.symm⟩
    · obtain ⟨pd', hpd', hrest⟩ := ih row h
      exact ⟨pd', by simp [hpd'], hrest⟩

/-- C9: connecting to the dashboard of an existing election joins the group,
accepts, and sends exactly one snapshot — full tally plus full ledger — to
this session alone, with no close; on an empty ledger that snapshot carries an
empty ledger list and all-zero counts; connecting with an unknown election id
ends in a close and no snapshot is ever sent. -/
theorem C9_subscribe_snapshot (db : DB) (slug : String) :
    (∀ e, findElection db slug = some e →
      dashboard_connect db slug =
        [WsAction.groupAdd ("dashboard_" ++ slug), WsAction.accept,
          WsAction.send (get_tally_data db e)] ∧
      (ledgerOf db e.id = [] →
        (get_tally_data db e).ledger = [] ∧
        ∀ row ∈ (get_tally_data db e).tally, row.votes = 0)) ∧
    (findElection db slug = none →
      dashboard_connect db slug =
        [WsAction.groupAdd ("dashboard_" ++ slug), WsAction.accept, WsAction.close]) := by
  constructor
  · intro e he
    constructor
    · unfold dashboard_connect
      rw [he]
      rfl
    · intro hemp
      have hle : listEntries db e.id = [] := by
        unfold listEntries
        rw [hemp]
        rfl
      constructor
      · unfold get_tally_data
        rw [hle]
        rfl
      · intro row hrow
        unfold get_tally_data at hrow
        rw [hle] at hrow
        simp only [List.map_nil] at hrow
        obtain ⟨pd, hpd, cn, hcn, hr⟩ :=
          mem_tally_rows (tally_of e.positions_json []) row hrow
        have hz : ∀ pd ∈ tally_of e.positions_json [], ∀ cn ∈ pd.2, cn.2 = 0 :=
          init_tally_zero e.positions_json [] (by simp)
        rw [hr]
        exact hz pd hpd cn hcn
  · intro he
    unfold dashboard_connect
    rw [he]
    rfl

/-- Witness for C9 at the concrete empty-ledger database. -/
theorem C9_witness :
    dashboard_connect wdbEmpty "student-council-2025" =
      [WsAction.groupAdd ("dashboard_" ++ "student-council-2025"), WsAction.accept,
        WsAction.send (get_tally_data wdbEmpty wElection)] ∧
    (get_tally_data wdbEmpty wElection).ledger = [] ∧
    ∀ row ∈ (get_tally_data wdbEmpty wElection).tally, row.votes = 0 := by
  obtain ⟨h1, h2⟩ := (C9_subscribe_snapshot wdbEmpty "student-council-2025").1 wElection rfl
  exact ⟨h1, (h2 rfl).1, (h2 rfl).2⟩

/-! ### C10: tally endpoint vs detail endpoint -/

/-- C10: `PublicTallyView` serves the full snapshot for every existing
election regardless of `is_active`, answering 404 only for an unknown id,
whereas `PublicElectionDetailView` answers 404 also when the election exists
but is not active. -/
theorem C10_tally_vs_detail (db : DB) (slug : String) :
    (∀ e, findElection db slug = some e →
      public_tally_view db slug = TallyResponse.ok (get_tally_data db e)) ∧
    (findElection db slug = none → public_tally_view db slug = TallyResponse.http404) ∧
    (∀ e, findElection db slug = some e → e.is_active = false →
      public_election_detail_view db slug = DetailResponse.http404) := by
  refine ⟨?_, ?_, ?_⟩
  · intro e he
    unfold public_tally_view
    rw [he]
  · intro he
    unfold public_tally_view
    rw [he]
  · intro e he hact
    unfold public_election_detail_view
    rw [he]
    dsimp only
    rw [if_neg (by rw [hact]; simp)]

/-- Concrete inactive election for the C10 witness. -/
def c10elec : Election := ⟨2, "Closed Race", "closed", [("President", ["Alice"])], false⟩

/-- Concrete database for the C10 witness. -/
def c10db : DB := ⟨[c10elec], [], []⟩

/-- Witness for C10: the dashboard endpoint serves the inactive election while
the detail endpoint 404s it, and an unknown id 404s on the dashboard. -/
theorem C10_witness :
    public_tally_view c10db "closed" = TallyResponse.ok (get_tally_data c10db c10elec) ∧
    public_tally_view c10db "missing" = TallyResponse.http404 ∧
    public_election_detail_view c10db "closed" = DetailResponse.http404 :=
  ⟨(C10_tally_vs_detail c10db "closed").1 c10elec rfl,
   (C10_tally_vs_detail c10db "missing").2.1 rfl,
   (C10_tally_vs_detail c10db "closed").2.2 c10elec rfl rfl⟩

end Votechain
